import Mathlib

/-!
# Verification of the classpub-cli synchronization and comparison engine

A shallow embedding, in Lean 4, of the core of `classpub_cli` (the Python
modules `sync.py` and `utils.py`), together with theorems settling the
frozen claims about it.

Modelling conventions, used throughout:

* The file system is a finite association list from absolute paths
  (lists of components) to file data.  Only regular files are stored;
  a directory "exists" exactly when some file lies strictly below it
  (empty directories and symbolic links are not modelled).
* File data is `Option Content`: `none` models a file whose metadata is
  listed by a directory walk but whose `stat`/`open` raises `OSError`.
* `Content` is either raw bytes (`bytes`) or a parseable JSON document
  (`nbDoc j`): a notebook file whose JSON parse is the tree `j` is
  represented by its parse tree.  Two byte strings that parse to the
  same JSON tree are identified by this embedding; unparseable bytes
  are `bytes`.
* SHA-256 is modelled as collision-free, so `files_equal` is content
  equality.
* The repository constants `PENDING`/`PREVIEW` and the ignore lists
  `IGNORED_FILES`/`IGNORED_DIRS` are imported by `sync.py` from modules
  absent from the source snapshot; they are modelled from the spec
  where they are introduced below.
-/

namespace Classpub

/-- A filesystem path, as its list of components (`pathlib.Path.parts`). -/
abbrev Path := List String

/-- The slash-joined form of a relative path (`Path.as_posix`). -/
def posix (p : Path) : String := String.intercalate "/" p

/-- A well-formed path component: nonempty and free of separators, as
`pathlib` produces. -/
def compWF (c : String) : Prop := c ≠ "" ∧ ¬ (c.toList.contains '/')

/-- A well-formed relative path: nonempty with well-formed components. -/
def pathWF (p : Path) : Prop := p ≠ [] ∧ ∀ c ∈ p, compWF c

instance : DecidablePred compWF := fun c =>
  decidable_of_iff (c ≠ "" ∧ ¬ (c.toList.contains '/')) Iff.rfl

instance : DecidablePred pathWF := fun p =>
  decidable_of_iff (p ≠ [] ∧ ∀ c ∈ p, compWF c) Iff.rfl

/-- Lexicographic comparison of character lists by code point — the
order Python's `sorted` applies to strings. -/
def charsLe : List Char → List Char → Bool
  | [], _ => true
  | _ :: _, [] => false
  | x :: xs, y :: ys =>
      if x.toNat < y.toNat then true
      else if y.toNat < x.toNat then false
      else charsLe xs ys

/-- Python string comparison. -/
def strLe (a b : String) : Bool := charsLe a.toList b.toList

theorem charsLe_total : ∀ a b : List Char,
    charsLe a b = true ∨ charsLe b a = true
  | [], b => Or.inl rfl
  | x :: xs, [] => Or.inr rfl
  | x :: xs, y :: ys => by
      by_cases h1 : x.toNat < y.toNat
      · left
        rw [charsLe, if_pos h1]
      · by_cases h2 : y.toNat < x.toNat
        · right
          rw [charsLe, if_pos h2]
        · rcases charsLe_total xs ys with h | h
          · left
            rw [charsLe, if_neg h1, if_neg h2]
            exact h
          · right
            rw [charsLe, if_neg h2, if_neg h1]
            exact h

theorem charsLe_trans : ∀ a b c : List Char, charsLe a b = true →
    charsLe b c = true → charsLe a c = true
  | [], _, _, _, _ => rfl
  | x :: xs, [], c, hab, _ => by rw [charsLe] at hab; cases hab
  | x :: xs, y :: ys, [], _, hbc => by rw [charsLe] at hbc; cases hbc
  | x :: xs, y :: ys, z :: zs, hab, hbc => by
      rw [charsLe] at hab hbc ⊢
      by_cases h1 : x.toNat < y.toNat
      · by_cases h2 : y.toNat < z.toNat
        · rw [if_pos (by omega)]
        · by_cases h3 : z.toNat < y.toNat
          · rw [if_pos h3, if_neg (by omega)] at hbc
            cases hbc
          · rw [if_pos (by omega)]
      · by_cases h4 : y.toNat < x.toNat
        · rw [if_neg h1, if_pos h4] at hab
          cases hab
        · by_cases h2 : y.toNat < z.toNat
          · rw [if_pos (by omega)]
          · by_cases h3 : z.toNat < y.toNat
            · rw [if_pos h3, if_neg (by omega)] at hbc
              cases hbc
            · rw [if_neg h1, if_neg h4] at hab
              rw [if_neg h2, if_neg h3] at hbc
              rw [if_neg (by omega), if_neg (by omega)]
              exact charsLe_trans xs ys zs hab hbc

/-- Key-based comparison used by every `sort(key=...as_posix())` in the
source: compare the string keys in Python's string order. -/
def keyLe (f : α → String) (a b : α) : Prop := strLe (f a) (f b) = true

instance instDecidableRelKeyLe (f : α → String) : DecidableRel (keyLe f) :=
  fun a b => inferInstanceAs (Decidable (strLe (f a) (f b) = true))

/-- `sorted(l, key=f)` : stable sort by a string key. -/
def sortOn (f : α → String) (l : List α) : List α := l.insertionSort (keyLe f)

theorem sortOn_sorted (f : α → String) (l : List α) :
    (sortOn f l).Sorted (keyLe f) :=
  @List.sorted_insertionSort _ (keyLe f) _
    ⟨fun a b => charsLe_total (f a).toList (f b).toList⟩
    ⟨fun _ _ _ => charsLe_trans _ _ _⟩ l

theorem sortOn_perm (f : α → String) (l : List α) : List.Perm (sortOn f l) l :=
  List.perm_insertionSort _ l

theorem mem_sortOn (f : α → String) {l : List α} {x : α} :
    x ∈ sortOn f l ↔ x ∈ l :=
  List.mem_insertionSort _

theorem sortOn_eq_self (f : α → String) {l : List α}
    (h : l.Sorted (keyLe f)) : sortOn f l = l :=
  List.Sorted.insertionSort_eq h

/-! ## JSON documents

`json.loads` / `json.dumps` and the `nbformat` object model are embedded
as a tree type.  Numbers are integers (the fields the code manipulates
are integral or null); a Python `dict` is a list of key-value pairs,
duplicate-free in every tree that `json.loads` can produce. -/

inductive Json where
  | null : Json
  | bool (b : Bool) : Json
  | num (n : Int) : Json
  | str (s : String) : Json
  | arr (elems : List Json) : Json
  | obj (fields : List (String × Json)) : Json

namespace Json

theorem sizeOf_lt_of_mem_arr {x : Json} {l : List Json} (h : x ∈ l) :
    sizeOf x < sizeOf (Json.arr l) := by
  have := List.sizeOf_lt_of_mem h
  simp only [Json.arr.sizeOf_spec]
  omega

theorem sizeOf_snd_lt_of_mem_obj {p : String × Json} {l : List (String × Json)}
    (h : p ∈ l) : sizeOf p.2 < sizeOf (Json.obj l) := by
  have h1 := List.sizeOf_lt_of_mem h
  have h2 : sizeOf p.2 < sizeOf p := by
    obtain ⟨k, v⟩ := p
    simp only [Prod.mk.sizeOf_spec]
    omega
  simp only [Json.obj.sizeOf_spec]
  omega

end Json

mutual

/-- Boolean equality of JSON trees (equality of the parsed documents). -/
def beqJ : Json → Json → Bool
  | .null, .null => true
  | .bool a, .bool b => a == b
  | .num a, .num b => a == b
  | .str a, .str b => a == b
  | .arr a, .arr b => beqL a b
  | .obj a, .obj b => beqP a b
  | _, _ => false

def beqL : List Json → List Json → Bool
  | [], [] => true
  | x :: xs, y :: ys => beqJ x y && beqL xs ys
  | _, _ => false

def beqP : List (String × Json) → List (String × Json) → Bool
  | [], [] => true
  | p :: xs, q :: ys => p.1 == q.1 && beqJ p.2 q.2 && beqP xs ys
  | _, _ => false

end

mutual

theorem beqJ_iff : ∀ a b : Json, beqJ a b = true ↔ a = b
  | .null, b => by cases b <;> simp [beqJ]
  | .bool x, b => by cases b <;> simp [beqJ]
  | .num x, b => by cases b <;> simp [beqJ]
  | .str x, b => by cases b <;> simp [beqJ]
  | .arr l, b => by
      cases b with
      | arr m => rw [show beqJ (.arr l) (.arr m) = beqL l m from rfl,
          beqL_iff]; simp
      | null => simp [beqJ]
      | bool x => simp [beqJ]
      | num x => simp [beqJ]
      | str x => simp [beqJ]
      | obj m => simp [beqJ]
  | .obj l, b => by
      cases b with
      | obj m => rw [show beqJ (.obj l) (.obj m) = beqP l m from rfl,
          beqP_iff]; simp
      | null => simp [beqJ]
      | bool x => simp [beqJ]
      | num x => simp [beqJ]
      | str x => simp [beqJ]
      | arr m => simp [beqJ]

theorem beqL_iff : ∀ a b : List Json, beqL a b = true ↔ a = b
  | [], b => by cases b <;> simp [beqL]
  | x :: xs, b => by
      cases b with
      | nil => simp [beqL]
      | cons y ys =>
          simp only [beqL, Bool.and_eq_true, List.cons.injEq]
          rw [beqJ_iff, beqL_iff]

theorem beqP_iff : ∀ a b : List (String × Json), beqP a b = true ↔ a = b
  | [], b => by cases b <;> simp [beqP]
  | p :: xs, b => by
      cases b with
      | nil => simp [beqP]
      | cons q ys =>
          simp only [beqP, Bool.and_eq_true, List.cons.injEq]
          rw [beqJ_iff, beqP_iff, beq_iff_eq, Prod.ext_iff]

end

theorem beqJ_refl (a : Json) : beqJ a a = true := (beqJ_iff a a).2 rfl

instance : DecidableEq Json := fun a b =>
  decidable_of_iff (beqJ a b = true) (beqJ_iff a b)

/-- Python dict read `d.get(k)` / `d[k]`: the value at key `k`. -/
def objGet (k : String) : List (String × Json) → Option Json
  | [] => none
  | p :: t => if p.1 = k then some p.2 else objGet k t

/-- Python dict write `d[k] = v`: replace the value at `k` in place if the
key is present (every occurrence, matching the unique-key discipline of
Python dicts), else append the pair at the end. -/
def objSet (k : String) (v : Json) (l : List (String × Json)) :
    List (String × Json) :=
  if l.any (fun p => p.1 = k) then
    l.map (fun p => if p.1 = k then (k, v) else p)
  else l ++ [(k, v)]

/-- Python dict removal `d.pop(k, None)`. -/
def objPop (k : String) (l : List (String × Json)) : List (String × Json) :=
  l.filter (fun p => p.1 ≠ k)

/-- Recursively sort the keys of every object: the effect of
`json.dumps(..., sort_keys=True)` on the tree it serializes. -/
def sortJ : Json → Json
  | .null => .null
  | .bool b => .bool b
  | .num n => .num n
  | .str s => .str s
  | .arr l => .arr (l.attach.map fun x => sortJ x.1)
  | .obj l =>
      .obj (sortOn Prod.fst (l.attach.map fun x => (x.1.1, sortJ x.1.2)))
  decreasing_by
  · exact Json.sizeOf_lt_of_mem_arr x.2
  · exact Json.sizeOf_snd_lt_of_mem_obj x.2

theorem sortJ_arr (l : List Json) : sortJ (.arr l) = .arr (l.map sortJ) := by
  rw [sortJ]
  congr 1
  calc l.attach.map (fun x => sortJ x.1)
      = l.attach.map (sortJ ∘ Subtype.val) := rfl
    _ = (l.attach.map Subtype.val).map sortJ := by rw [List.map_map]
    _ = l.map sortJ := by rw [List.attach_map_subtype_val]

theorem sortJ_obj (l : List (String × Json)) :
    sortJ (.obj l) =
      .obj (sortOn Prod.fst (l.map fun p => (p.1, sortJ p.2))) := by
  rw [sortJ]
  congr 2
  calc l.attach.map (fun x => (x.1.1, sortJ x.1.2))
      = l.attach.map ((fun p => (p.1, sortJ p.2)) ∘ Subtype.val) := rfl
    _ = (l.attach.map Subtype.val).map (fun p => (p.1, sortJ p.2)) := by
        rw [List.map_map]
    _ = l.map (fun p => (p.1, sortJ p.2)) := by rw [List.attach_map_subtype_val]

theorem sortJ_null : sortJ .null = .null := by rw [sortJ]

theorem sortJ_bool (b : Bool) : sortJ (.bool b) = .bool b := by rw [sortJ]

theorem sortJ_num (n : Int) : sortJ (.num n) = .num n := by rw [sortJ]

theorem sortJ_str (s : String) : sortJ (.str s) = .str s := by rw [sortJ]

theorem sortJ_eq_str_iff {v : Json} {s : String} :
    sortJ v = .str s ↔ v = .str s := by
  cases v <;>
    simp [sortJ_null, sortJ_bool, sortJ_num, sortJ_str, sortJ_arr, sortJ_obj]

theorem sortJ_eq_obj {v : Json} {h : List (String × Json)}
    (hv : sortJ v = .obj h) :
    ∃ g, v = .obj g ∧
      h = sortOn Prod.fst (g.map fun p => (p.1, sortJ p.2)) := by
  cases v <;>
    simp_all [sortJ_null, sortJ_bool, sortJ_num, sortJ_str, sortJ_arr,
      sortJ_obj]

/-- The key map of a sorted-and-recursively-sorted object is a
permutation of the original key map. -/
theorem keys_sortJ_obj_perm (l : List (String × Json)) :
    List.Perm
      ((sortOn Prod.fst (l.map fun p => (p.1, sortJ p.2))).map Prod.fst)
      (l.map Prod.fst) := by
  have h1 := (sortOn_perm Prod.fst (l.map fun p => (p.1, sortJ p.2))).map
    Prod.fst
  have h2 : (l.map fun p => (p.1, sortJ p.2)).map Prod.fst = l.map Prod.fst := by
    rw [List.map_map]; rfl
  rw [h2] at h1
  exact h1

/-! ### Duplicate-free key lists -/

/-- No key occurs twice: the invariant every `json.loads` dict satisfies. -/
def nodupKeysB : List (String × Json) → Bool
  | [] => true
  | p :: t => (!(t.any fun q => q.1 == p.1)) && nodupKeysB t

theorem nodupKeysB_iff (l : List (String × Json)) :
    nodupKeysB l = true ↔ (l.map Prod.fst).Nodup := by
  induction l with
  | nil => simp [nodupKeysB]
  | cons p t ih =>
      rw [List.map_cons, List.nodup_cons, ← ih,
        show nodupKeysB (p :: t) =
          ((!(t.any fun q => q.1 == p.1)) && nodupKeysB t) from rfl,
        Bool.and_eq_true]
      constructor
      · rintro ⟨h1, h2⟩
        refine ⟨fun hmem => ?_, h2⟩
        obtain ⟨q, hq, hqe⟩ := List.mem_map.1 hmem
        rw [Bool.not_eq_true', List.any_eq_false] at h1
        have h3 := h1 q hq
        rw [hqe] at h3
        simp at h3
      · rintro ⟨h1, h2⟩
        refine ⟨?_, h2⟩
        rw [Bool.not_eq_true', List.any_eq_false]
        intro q hq
        intro hbe
        rw [beq_iff_eq] at hbe
        exact h1 (List.mem_map.2 ⟨q, hq, hbe⟩)

theorem nodupKeysB_perm {l l' : List (String × Json)}
    (h : List.Perm l l') : nodupKeysB l = nodupKeysB l' := by
  have hiff : (l.map Prod.fst).Nodup ↔ (l'.map Prod.fst).Nodup :=
    (h.map Prod.fst).nodup_iff
  rcases hb : nodupKeysB l'
  · rcases hb2 : nodupKeysB l
    · rfl
    · exfalso
      rw [nodupKeysB_iff] at hb2
      have h3 := hiff.1 hb2
      rw [← nodupKeysB_iff, hb] at h3
      exact Bool.false_ne_true h3
  · rw [nodupKeysB_iff]
    rw [nodupKeysB_iff] at hb
    exact hiff.2 hb

theorem nodupKeysB_map_sortJ (l : List (String × Json)) :
    nodupKeysB (l.map fun p => (p.1, sortJ p.2)) = nodupKeysB l := by
  have hiff : nodupKeysB (l.map fun p => (p.1, sortJ p.2)) = true ↔
      nodupKeysB l = true := by
    rw [nodupKeysB_iff, nodupKeysB_iff, List.map_map]
    exact Iff.rfl
  rcases hb : nodupKeysB (l.map fun p => (p.1, sortJ p.2)) <;>
    rcases hb2 : nodupKeysB l <;> simp_all

/-! ### Facts about the dict operations -/

theorem objGet_eq_none_iff {k : String} {l : List (String × Json)} :
    objGet k l = none ↔ ∀ p ∈ l, p.1 ≠ k := by
  induction l with
  | nil => simp [objGet]
  | cons p t ih =>
      by_cases h : p.1 = k <;> simp [objGet, h, ih]

theorem objGet_mem {k : String} {v : Json} {l : List (String × Json)}
    (h : objGet k l = some v) : (k, v) ∈ l := by
  induction l with
  | nil => simp [objGet] at h
  | cons p t ih =>
      obtain ⟨a, w⟩ := p
      by_cases hp : a = k
      · rw [show objGet k ((a, w) :: t) = if a = k then some w else objGet k t
          from rfl, if_pos hp] at h
        cases h
        rw [hp]
        exact List.mem_cons_self _ _
      · rw [show objGet k ((a, w) :: t) = if a = k then some w else objGet k t
          from rfl, if_neg hp] at h
        exact List.mem_cons_of_mem _ (ih h)

theorem objGet_of_mem_nodup {k : String} {v : Json}
    {l : List (String × Json)} (hn : nodupKeysB l = true)
    (h : (k, v) ∈ l) : objGet k l = some v := by
  induction l with
  | nil => simp at h
  | cons p t ih =>
      obtain ⟨a, w⟩ := p
      rw [show nodupKeysB ((a, w) :: t) =
        ((!(t.any fun q => q.1 == a)) && nodupKeysB t) from rfl,
        Bool.and_eq_true, Bool.not_eq_true', List.any_eq_false] at hn
      rcases List.mem_cons.1 h with h1 | h1
      · injection h1 with h1a h1b
        subst h1a
        subst h1b
        rw [show objGet k ((k, v) :: t) = if k = k then some v else objGet k t
          from rfl, if_pos rfl]
      · have hak : a ≠ k := by
          intro hk
          have h2 := hn.1 (k, v) h1
          rw [show ((k, v) : String × Json).1 = k from rfl] at h2
          rw [hk] at h2
          simp at h2
        rw [show objGet k ((a, w) :: t) = if a = k then some w else objGet k t
          from rfl, if_neg hak]
        exact ih hn.2 h1

theorem objGet_objSet_self (k : String) (v : Json)
    (l : List (String × Json)) : objGet k (objSet k v l) = some v := by
  rw [objSet]
  by_cases h : l.any (fun p => p.1 = k)
  · rw [if_pos h]
    simp only [List.any_eq_true, decide_eq_true_eq] at h
    obtain ⟨p0, hp0, hp0k⟩ := h
    induction l with
    | nil => simp at hp0
    | cons q t ih =>
        obtain ⟨a, w⟩ := q
        by_cases ha : a = k
        · rw [List.map_cons, show (if ((a, w) : String × Json).1 = k
            then (k, v) else (a, w)) = (k, v) from by rw [if_pos ha],
            show objGet k ((k, v) :: List.map
              (fun p => if p.1 = k then (k, v) else p) t) =
              if k = k then some v else objGet k
                (List.map (fun p => if p.1 = k then (k, v) else p) t)
              from rfl, if_pos rfl]
        · rcases List.mem_cons.1 hp0 with h1 | h1
          · exfalso
            apply ha
            rw [h1] at hp0k
            exact hp0k
          · rw [List.map_cons, show (if ((a, w) : String × Json).1 = k
              then (k, v) else (a, w)) = (a, w) from by rw [if_neg ha],
              show objGet k ((a, w) :: List.map
                (fun p => if p.1 = k then (k, v) else p) t) =
                if a = k then some w else objGet k
                  (List.map (fun p => if p.1 = k then (k, v) else p) t)
                from rfl, if_neg ha]
            exact ih h1
  · rw [if_neg h]
    simp only [List.any_eq_true, decide_eq_true_eq] at h
    push_neg at h
    induction l with
    | nil =>
        rw [List.nil_append,
          show objGet k [(k, v)] = if k = k then some v else objGet k []
            from rfl, if_pos rfl]
    | cons q t ih =>
        obtain ⟨a, w⟩ := q
        have ha : a ≠ k := h (a, w) (List.mem_cons_self _ _)
        rw [List.cons_append,
          show objGet k ((a, w) :: (t ++ [(k, v)])) =
            if a = k then some w else objGet k (t ++ [(k, v)]) from rfl,
          if_neg ha]
        exact ih (fun p hp => h p (List.mem_cons_of_mem _ hp))

theorem objGet_objSet_other {k' k : String} (hne : k' ≠ k) (v : Json)
    (l : List (String × Json)) : objGet k' (objSet k v l) = objGet k' l := by
  rw [objSet]
  by_cases h : l.any (fun p => p.1 = k)
  · rw [if_pos h]
    clear h
    induction l with
    | nil => rfl
    | cons q t ih =>
        obtain ⟨a, w⟩ := q
        by_cases ha : a = k
        · have hak' : a ≠ k' := by rw [ha]; exact fun hh => hne hh.symm
          rw [List.map_cons, show (if ((a, w) : String × Json).1 = k
            then (k, v) else (a, w)) = (k, v) from by rw [if_pos ha],
            show objGet k' ((k, v) :: List.map
              (fun p => if p.1 = k then (k, v) else p) t) =
              if k = k' then some v else objGet k'
                (List.map (fun p => if p.1 = k then (k, v) else p) t)
              from rfl, if_neg (fun hh => hne hh.symm),
            show objGet k' ((a, w) :: t) =
              if a = k' then some w else objGet k' t from rfl,
            if_neg hak', ih]
        · rw [List.map_cons, show (if ((a, w) : String × Json).1 = k
            then (k, v) else (a, w)) = (a, w) from by rw [if_neg ha],
            show objGet k' ((a, w) :: List.map
              (fun p => if p.1 = k then (k, v) else p) t) =
              if a = k' then some w else objGet k'
                (List.map (fun p => if p.1 = k then (k, v) else p) t)
              from rfl,
            show objGet k' ((a, w) :: t) =
              if a = k' then some w else objGet k' t from rfl, ih]
  · rw [if_neg h]
    clear h
    induction l with
    | nil =>
        rw [List.nil_append,
          show objGet k' [(k, v)] = if k = k' then some v else objGet k' []
            from rfl, if_neg (fun hh => hne hh.symm)]
    | cons q t ih =>
        obtain ⟨a, w⟩ := q
        rw [List.cons_append,
          show objGet k' ((a, w) :: (t ++ [(k, v)])) =
            if a = k' then some w else objGet k' (t ++ [(k, v)]) from rfl,
          show objGet k' ((a, w) :: t) =
            if a = k' then some w else objGet k' t from rfl, ih]

theorem objSet_self_of_objGet {k : String} {v : Json}
    {l : List (String × Json)} (hn : nodupKeysB l = true)
    (h : objGet k l = some v) : objSet k v l = l := by
  rw [objSet]
  have hmem : (k, v) ∈ l := objGet_mem h
  have hany : l.any (fun p => p.1 = k) = true := by
    simp only [List.any_eq_true, decide_eq_true_eq]
    exact ⟨(k, v), hmem, rfl⟩
  rw [if_pos hany]
  have huniq : ∀ p ∈ l, p.1 = k → p = (k, v) := by
    rintro ⟨a, w⟩ hp hpk
    rw [show ((a, w) : String × Json).1 = a from rfl] at hpk
    subst hpk
    have h2 := objGet_of_mem_nodup hn hp
    rw [h] at h2
    cases h2
    rfl
  calc l.map (fun p => if p.1 = k then (k, v) else p)
      = l.map id := by
        apply List.map_congr_left
        intro p hp
        by_cases hpk : p.1 = k
        · rw [if_pos hpk, id_eq]
          exact (huniq p hp hpk).symm
        · rw [if_neg hpk, id_eq]
    _ = l := List.map_id l

theorem objGet_objPop_other {k' k : String} (hne : k' ≠ k)
    (l : List (String × Json)) : objGet k' (objPop k l) = objGet k' l := by
  induction l with
  | nil => rfl
  | cons q t ih =>
      obtain ⟨a, w⟩ := q
      rw [objPop] at ih ⊢
      by_cases ha : a = k
      · have hak' : a ≠ k' := by rw [ha]; exact fun hh => hne hh.symm
        rw [List.filter_cons]
        rw [if_neg (by simp [ha])]
        rw [ih, show objGet k' ((a, w) :: t) =
          if a = k' then some w else objGet k' t from rfl, if_neg hak']
      · rw [List.filter_cons]
        rw [if_pos (by simp [ha])]
        rw [show objGet k' ((a, w) :: t.filter (fun p => p.1 ≠ k)) =
            if a = k' then some w
            else objGet k' (t.filter (fun p => p.1 ≠ k)) from rfl,
          show objGet k' ((a, w) :: t) =
            if a = k' then some w else objGet k' t from rfl, ih]

theorem objGet_objPop_self (k : String) (l : List (String × Json)) :
    objGet k (objPop k l) = none := by
  rw [objGet_eq_none_iff]
  intro p hp
  have h1 := List.of_mem_filter hp
  simpa using h1

theorem objPop_of_absent {k : String} {l : List (String × Json)}
    (h : ∀ p ∈ l, p.1 ≠ k) : objPop k l = l := by
  rw [objPop]
  apply List.filter_eq_self.2
  intro p hp
  simpa using h p hp

theorem mem_objPop {k : String} {p : String × Json}
    {l : List (String × Json)} (h : p ∈ objPop k l) : p.1 ≠ k ∧ p ∈ l := by
  have h1 := List.of_mem_filter h
  have h2 := List.mem_of_mem_filter h
  simp at h1
  exact ⟨h1, h2⟩

theorem nodupKeysB_objSet {k : String} {v : Json}
    {l : List (String × Json)} (hn : nodupKeysB l = true) :
    nodupKeysB (objSet k v l) = true := by
  rw [nodupKeysB_iff] at hn ⊢
  rw [objSet]
  by_cases h : l.any (fun p => p.1 = k)
  · rw [if_pos h]
    have hkeys : (l.map fun p => if p.1 = k then (k, v) else p).map Prod.fst =
        l.map Prod.fst := by
      rw [List.map_map]
      apply List.map_congr_left
      intro p _
      by_cases hpk : p.1 = k
      · simp [hpk]
      · simp [hpk]
    rw [hkeys]
    exact hn
  · rw [if_neg h]
    simp only [List.any_eq_true, decide_eq_true_eq] at h
    push_neg at h
    rw [List.map_append, List.map_cons, List.map_nil, List.nodup_append]
    refine ⟨hn, List.nodup_singleton k, ?_⟩
    intro a ha hb
    simp only [List.mem_singleton] at hb
    obtain ⟨p, hp, rfl⟩ := List.mem_map.1 ha
    exact h p hp hb

theorem nodupKeysB_objPop {k : String} {l : List (String × Json)}
    (hn : nodupKeysB l = true) : nodupKeysB (objPop k l) = true := by
  rw [nodupKeysB_iff] at hn ⊢
  have hsub : List.Sublist ((objPop k l).map Prod.fst) (l.map Prod.fst) :=
    (List.filter_sublist l).map Prod.fst
  exact List.Nodup.sublist hsub hn

/-- Sorting keys recursively is idempotent. -/
theorem sortJ_idem : ∀ j : Json, sortJ (sortJ j) = sortJ j
  | .null => by rw [sortJ_null, sortJ_null]
  | .bool b => by rw [sortJ_bool, sortJ_bool]
  | .num n => by rw [sortJ_num, sortJ_num]
  | .str s => by rw [sortJ_str, sortJ_str]
  | .arr l => by
      rw [sortJ_arr, sortJ_arr, List.map_map]
      congr 1
      apply List.map_congr_left
      intro x hx
      exact sortJ_idem x
  | .obj l => by
      rw [sortJ_obj, sortJ_obj]
      have hsorted : (sortOn Prod.fst
          (l.map fun p => (p.1, sortJ p.2))).Sorted (keyLe Prod.fst) :=
        sortOn_sorted _ _
      have hsorted2 : ((sortOn Prod.fst (l.map fun p => (p.1, sortJ p.2))).map
          fun p => (p.1, sortJ p.2)).Sorted (keyLe Prod.fst) := by
        apply List.Pairwise.map
        · intro a b hab
          exact hab
        · exact hsorted
      rw [sortOn_eq_self _ hsorted2]
      congr 1
      have hid : ∀ x ∈ sortOn Prod.fst (l.map fun p => (p.1, sortJ p.2)),
          (fun p => (p.1, sortJ p.2)) x = x := by
        intro x hx
        rw [mem_sortOn] at hx
        obtain ⟨p, hp, rfl⟩ := List.mem_map.1 hx
        have := sortJ_idem p.2
        simp only [this]
      calc (sortOn Prod.fst (l.map fun p => (p.1, sortJ p.2))).map
            (fun p => (p.1, sortJ p.2))
          = (sortOn Prod.fst (l.map fun p => (p.1, sortJ p.2))).map id := by
            apply List.map_congr_left
            intro x hx
            rw [id_eq]
            exact hid x hx
        _ = sortOn Prod.fst (l.map fun p => (p.1, sortJ p.2)) :=
            List.map_id _
  decreasing_by
  · exact Json.sizeOf_lt_of_mem_arr hx
  · exact Json.sizeOf_snd_lt_of_mem_obj hp

/-- Reading a key from the recursively key-sorted copy of an object with
duplicate-free keys gives the sorted copy of the original value. -/
theorem objGet_sorted_mapped {l : List (String × Json)}
    (hn : nodupKeysB l = true) (k : String) :
    objGet k (sortOn Prod.fst (l.map fun p => (p.1, sortJ p.2))) =
      (objGet k l).map sortJ := by
  set L := sortOn Prod.fst (l.map fun p => (p.1, sortJ p.2)) with hL
  have hperm : List.Perm L (l.map fun p => (p.1, sortJ p.2)) :=
    sortOn_perm _ _
  have hnL : nodupKeysB L = true := by
    rw [nodupKeysB_perm hperm, nodupKeysB_map_sortJ]
    exact hn
  cases hg : objGet k l with
  | none =>
      simp only [Option.map_none']
      rw [objGet_eq_none_iff] at hg ⊢
      intro p hp
      have hp2 : p ∈ l.map fun p => (p.1, sortJ p.2) := hperm.mem_iff.1 hp
      obtain ⟨q, hq, rfl⟩ := List.mem_map.1 hp2
      exact hg q hq
  | some v =>
      simp only [Option.map_some']
      have hmem : (k, v) ∈ l := objGet_mem hg
      have hmem2 : (k, sortJ v) ∈ L := by
        apply hperm.mem_iff.2
        exact List.mem_map.2 ⟨(k, v), hmem, rfl⟩
      exact objGet_of_mem_nodup hnL hmem2

/-! ### Well-formed JSON trees

Every tree produced by `json.loads` has duplicate-free keys in every
object; theorems about dict-manipulating code assume this invariant. -/

/-- Every object in the tree has duplicate-free keys. -/
def wfJ : Json → Bool
  | .null => true
  | .bool _ => true
  | .num _ => true
  | .str _ => true
  | .arr l => l.attach.all fun x => wfJ x.1
  | .obj l => nodupKeysB l && l.attach.all fun x => wfJ x.1.2
  decreasing_by
  · exact Json.sizeOf_lt_of_mem_arr x.2
  · exact Json.sizeOf_snd_lt_of_mem_obj x.2

theorem wfJ_null : wfJ .null = true := by rw [wfJ]

theorem wfJ_bool (b : Bool) : wfJ (.bool b) = true := by rw [wfJ]

theorem wfJ_num (n : Int) : wfJ (.num n) = true := by rw [wfJ]

theorem wfJ_str (s : String) : wfJ (.str s) = true := by rw [wfJ]

theorem wfJ_arr_iff {l : List Json} :
    wfJ (.arr l) = true ↔ ∀ x ∈ l, wfJ x = true := by
  rw [wfJ, List.all_eq_true]
  constructor
  · intro h x hx
    exact h ⟨x, hx⟩ (List.mem_attach l ⟨x, hx⟩)
  · intro h y _
    exact h y.1 y.2

theorem wfJ_obj_iff {l : List (String × Json)} :
    wfJ (.obj l) = true ↔
      nodupKeysB l = true ∧ ∀ p ∈ l, wfJ p.2 = true := by
  rw [wfJ, Bool.and_eq_true, List.all_eq_true]
  constructor
  · rintro ⟨h1, h2⟩
    refine ⟨h1, fun p hp => ?_⟩
    exact h2 ⟨p, hp⟩ (List.mem_attach l ⟨p, hp⟩)
  · rintro ⟨h1, h2⟩
    exact ⟨h1, fun y _ => h2 y.1 y.2⟩

/-! ### Notebook canonicalization (`utils._normalized_notebook_text`)

`nbformat.read` / `nbformat.writes` / `json.loads` are modelled as the
identity on the parse tree of the document (that is exactly the
round-trip the source performs to obtain a plain dict). -/

/-- `cell.get("cell_type") == "code"`. -/
def isCellTypeCode (g : List (String × Json)) : Bool :=
  match objGet "cell_type" g with
  | some (.str s) => s == "code"
  | _ => false

/-- The code-cell part of the per-cell normalization: set `outputs = []`,
set `execution_count = None`, drop `metadata["execution"]` when the
metadata value is a dict. -/
def stripCellCode (g : List (String × Json)) : List (String × Json) :=
  let gb := objSet "execution_count" .null (objSet "outputs" (.arr []) g)
  match objGet "metadata" gb with
  | some (.obj md) => objSet "metadata" (.obj (objPop "execution" md)) gb
  | _ => gb

/-- The per-cell normalization of `_normalized_notebook_text`
(utils.py lines 198-208): normalize code cells, drop `id` from every
dict cell, and leave non-dict cells unchanged (their attribute access
raises and is swallowed by the per-cell `except`). -/
def stripCellU (c : Json) : Json :=
  match c with
  | .obj g =>
      .obj (objPop "id" (if isCellTypeCode g then stripCellCode g else g))
  | x => x

/-- The whole-document transformation of `_normalized_notebook_text`
(utils.py lines 195-210) before serialization: normalize every cell of
`doc["cells"]` and write the list back (`as_dict["cells"] = cells`,
which inserts `"cells": []` when the key was absent).  A document that
is not a dict, or whose `cells` value is not iterable, makes the Python
raise; those cases are `none`. -/
def stripTopU (j : Json) : Option Json :=
  match j with
  | .obj f =>
      match objGet "cells" f with
      | none => some (.obj (objSet "cells" (.arr []) f))
      | some (.arr l) =>
          some (.obj (objSet "cells" (.arr (l.map stripCellU)) f))
      | some (.str s) => some (.obj (objSet "cells" (.str s) f))
      | some (.obj m) => some (.obj (objSet "cells" (.obj m) f))
      | some _ => none
  | _ => none

/-! ### Compact JSON serialization (`json.dumps(..., separators=(",",":"))`) -/

def hexDigit (n : Nat) : Char :=
  if n < 10 then Char.ofNat (48 + n) else Char.ofNat (87 + n)

def escapeChar (c : Char) : String :=
  if c = '"' then "\\\""
  else if c = '\\' then "\\\\"
  else if c = '\n' then "\\n"
  else if c = '\t' then "\\t"
  else if c = '\r' then "\\r"
  else if c.toNat < 32 then
    String.mk ['\\', 'u', '0', '0', hexDigit (c.toNat / 16),
      hexDigit (c.toNat % 16)]
  else String.singleton c

def encStr (s : String) : String :=
  "\"" ++ String.join (s.toList.map escapeChar) ++ "\""

/-- Serialize a tree compactly, fields in stored order. -/
def dumps : Json → String
  | .null => "null"
  | .bool b => if b then "true" else "false"
  | .num n => toString n
  | .str s => encStr s
  | .arr l =>
      "[" ++ String.intercalate "," (l.attach.map fun x => dumps x.1) ++ "]"
  | .obj l =>
      "\x7b" ++ String.intercalate ","
        (l.attach.map fun x => encStr x.1.1 ++ ":" ++ dumps x.1.2) ++ "\x7d"
  decreasing_by
  · exact Json.sizeOf_lt_of_mem_arr x.2
  · exact Json.sizeOf_snd_lt_of_mem_obj x.2

/-- `json.dumps(x, sort_keys=True, separators=(",", ":"))`: serializing
with sorted keys is serializing the recursively key-sorted tree. -/
def dumpsSorted (j : Json) : String := dumps (sortJ j)

/-- `_normalized_notebook_text` on a parsed document: strip the cells,
then serialize with sorted keys and compact separators.  (`none` models
the exception path, on which the caller falls back to byte equality.) -/
def normalizedNotebookText (j : Json) : Option String :=
  (stripTopU j).map dumpsSorted

/-! ### Idempotence of the canonicalization -/

theorem isCellTypeCode_congr {a b : List (String × Json)}
    (h : objGet "cell_type" a = objGet "cell_type" b) :
    isCellTypeCode a = isCellTypeCode b := by
  rw [isCellTypeCode, isCellTypeCode, h]

theorem stripCellCode_facts {g : List (String × Json)}
    (hn : nodupKeysB g = true) :
    objGet "outputs" (stripCellCode g) = some (.arr []) ∧
    objGet "execution_count" (stripCellCode g) = some .null ∧
    (∀ md', objGet "metadata" (stripCellCode g) = some (.obj md') →
      ∀ p ∈ md', p.1 ≠ "execution") ∧
    nodupKeysB (stripCellCode g) = true ∧
    objGet "cell_type" (stripCellCode g) = objGet "cell_type" g := by
  rw [stripCellCode]
  set ga := objSet "outputs" (.arr []) g with hga
  set gb := objSet "execution_count" .null ga with hgb
  have hnga : nodupKeysB ga = true := nodupKeysB_objSet hn
  have hngb : nodupKeysB gb = true := nodupKeysB_objSet hnga
  have hbOut : objGet "outputs" gb = some (.arr []) := by
    rw [hgb, objGet_objSet_other (by decide), hga, objGet_objSet_self]
  have hbExec : objGet "execution_count" gb = some .null := by
    rw [hgb, objGet_objSet_self]
  have hbCt : objGet "cell_type" gb = objGet "cell_type" g := by
    rw [hgb, objGet_objSet_other (by decide), hga,
      objGet_objSet_other (by decide)]
  cases hmd : objGet "metadata" gb with
  | none =>
      refine ⟨hbOut, hbExec, ?_, hngb, hbCt⟩
      intro md' hmd'
      rw [hmd] at hmd'
      cases hmd'
  | some v =>
      cases v with
      | obj md =>
          refine ⟨?_, ?_, ?_, nodupKeysB_objSet hngb, ?_⟩
          · rw [objGet_objSet_other (by decide)]
            exact hbOut
          · rw [objGet_objSet_other (by decide)]
            exact hbExec
          · intro md' hmd' p hp
            rw [objGet_objSet_self] at hmd'
            cases hmd'
            exact (mem_objPop hp).1
          · rw [objGet_objSet_other (by decide)]
            exact hbCt
      | null =>
          refine ⟨hbOut, hbExec, ?_, hngb, hbCt⟩
          intro md' hmd'
          rw [hmd] at hmd'
          cases hmd'
      | bool b =>
          refine ⟨hbOut, hbExec, ?_, hngb, hbCt⟩
          intro md' hmd'
          rw [hmd] at hmd'
          cases hmd'
      | num n =>
          refine ⟨hbOut, hbExec, ?_, hngb, hbCt⟩
          intro md' hmd'
          rw [hmd] at hmd'
          cases hmd'
      | str s =>
          refine ⟨hbOut, hbExec, ?_, hngb, hbCt⟩
          intro md' hmd'
          rw [hmd] at hmd'
          cases hmd'
      | arr l =>
          refine ⟨hbOut, hbExec, ?_, hngb, hbCt⟩
          intro md' hmd'
          rw [hmd] at hmd'
          cases hmd'

theorem isCellTypeCode_sorted {l : List (String × Json)}
    (hn : nodupKeysB l = true) :
    isCellTypeCode (sortOn Prod.fst (l.map fun p => (p.1, sortJ p.2))) =
      isCellTypeCode l := by
  rw [isCellTypeCode, isCellTypeCode, objGet_sorted_mapped hn]
  cases objGet "cell_type" l with
  | none => rfl
  | some v =>
      cases v <;>
        simp [sortJ_null, sortJ_bool, sortJ_num, sortJ_str, sortJ_arr,
          sortJ_obj]

/-- An already-normalized cell, after key sorting, is a fixed point of
the per-cell normalization. -/
theorem stripCellU_sortJ (c : Json) (hwf : wfJ c = true) :
    stripCellU (sortJ (stripCellU c)) = sortJ (stripCellU c) := by
  cases c with
  | null => simp [stripCellU, sortJ_null]
  | bool b => simp [stripCellU, sortJ_bool]
  | num n => simp [stripCellU, sortJ_num]
  | str s => simp [stripCellU, sortJ_str]
  | arr l => simp [stripCellU, sortJ_arr]
  | obj g =>
    have hng : nodupKeysB g = true := (wfJ_obj_iff.1 hwf).1
    have hstrip : stripCellU (.obj g) =
        .obj (objPop "id" (if isCellTypeCode g then stripCellCode g else g)) :=
      rfl
    rw [hstrip]
    set g1 := if isCellTypeCode g then stripCellCode g else g with hg1
    have hn1 : nodupKeysB g1 = true := by
      rw [hg1]
      by_cases hct : isCellTypeCode g
      · rw [if_pos hct]
        exact (stripCellCode_facts hng).2.2.2.1
      · rw [if_neg hct]
        exact hng
    set dF := objPop "id" g1 with hdF
    have hn2 : nodupKeysB dF = true := nodupKeysB_objPop hn1
    have hid : ∀ p ∈ dF, p.1 ≠ "id" := fun p hp => (mem_objPop hp).1
    rw [sortJ_obj]
    set h := sortOn Prod.fst (dF.map fun p => (p.1, sortJ p.2)) with hh
    have hGet : ∀ k, objGet k h = (objGet k dF).map sortJ := fun k =>
      objGet_sorted_mapped hn2 k
    have hperm : List.Perm h (dF.map fun p => (p.1, sortJ p.2)) :=
      sortOn_perm _ _
    have hnh : nodupKeysB h = true := by
      rw [nodupKeysB_perm hperm, nodupKeysB_map_sortJ]
      exact hn2
    have hidh : ∀ p ∈ h, p.1 ≠ "id" := by
      intro p hp
      have hp2 := hperm.mem_iff.1 hp
      obtain ⟨q, hq, rfl⟩ := List.mem_map.1 hp2
      exact hid q hq
    have hpop : objPop "id" h = h := objPop_of_absent hidh
    have hcth : isCellTypeCode h = isCellTypeCode dF := by
      rw [hh]
      exact isCellTypeCode_sorted hn2
    have hctdF : objGet "cell_type" dF = objGet "cell_type" g1 :=
      objGet_objPop_other (by decide) _
    have hstrip2 : stripCellU (.obj h) =
        .obj (objPop "id" (if isCellTypeCode h then stripCellCode h else h)) :=
      rfl
    rw [hstrip2]
    rcases hct : isCellTypeCode g with hfalse | htrue
    · -- non-code cell: the re-strip only pops the (absent) id
      have hg1eq : g1 = g := by rw [hg1, if_neg (by rw [hct]; exact fun hc => Bool.false_ne_true hc)]
      have hcthF : isCellTypeCode h = false := by
        rw [hcth, isCellTypeCode_congr hctdF, hg1eq, hct]
      rw [if_neg (by rw [hcthF]; exact fun hc => Bool.false_ne_true hc), hpop]
    · -- code cell: every normalizing write is a no-op on the sorted cell
      have hg1eq : g1 = stripCellCode g := by rw [hg1, if_pos hct]
      obtain ⟨fOut, fExec, fMd, _, _⟩ := stripCellCode_facts hng
      have dOut : objGet "outputs" dF = some (.arr []) := by
        rw [hdF, objGet_objPop_other (by decide), hg1eq]
        exact fOut
      have dExec : objGet "execution_count" dF = some .null := by
        rw [hdF, objGet_objPop_other (by decide), hg1eq]
        exact fExec
      have dMd : ∀ md', objGet "metadata" dF = some (.obj md') →
          ∀ p ∈ md', p.1 ≠ "execution" := by
        intro md' hmd'
        rw [hdF, objGet_objPop_other (by decide), hg1eq] at hmd'
        exact fMd md' hmd'
      have hOut : objGet "outputs" h = some (.arr []) := by
        rw [hGet, dOut, Option.map_some', sortJ_arr, List.map_nil]
      have hExec : objGet "execution_count" h = some .null := by
        rw [hGet, dExec, Option.map_some', sortJ_null]
      by_cases hcth2 : isCellTypeCode h = true
      · rw [if_pos hcth2]
        have hsc : stripCellCode h = h := by
          rw [stripCellCode]
          have e1 : objSet "outputs" (.arr []) h = h :=
            objSet_self_of_objGet hnh hOut
          rw [e1]
          have e2 : objSet "execution_count" Json.null h = h :=
            objSet_self_of_objGet hnh hExec
          rw [e2]
          cases hmdh : objGet "metadata" h with
          | none => rfl
          | some v =>
              cases v with
              | obj mdh =>
                  have hmdd := hmdh
                  rw [hGet] at hmdd
                  cases hmdd2 : objGet "metadata" dF with
                  | none =>
                      rw [hmdd2, Option.map_none'] at hmdd
                      cases hmdd
                  | some v0 =>
                      rw [hmdd2, Option.map_some'] at hmdd
                      have hv0 : sortJ v0 = .obj mdh :=
                        Option.some.inj hmdd
                      obtain ⟨md0, hmd0, hmdh_eq⟩ := sortJ_eq_obj hv0
                      have habs : ∀ p ∈ mdh, p.1 ≠ "execution" := by
                        intro p hp
                        rw [hmdh_eq] at hp
                        rw [mem_sortOn] at hp
                        obtain ⟨q, hq, rfl⟩ := List.mem_map.1 hp
                        exact dMd md0 (by rw [hmdd2, hmd0]) q hq
                      show objSet "metadata" (Json.obj (objPop "execution" mdh))
                        h = h
                      rw [objPop_of_absent habs]
                      exact objSet_self_of_objGet hnh hmdh
              | null => rfl
              | bool b => rfl
              | num n => rfl
              | str s => rfl
              | arr l => rfl
        rw [hsc, hpop]
      · rw [if_neg hcth2, hpop]

theorem stripTopU_obj_eq (f : List (String × Json)) : stripTopU (.obj f) =
    match objGet "cells" f with
    | none => some (.obj (objSet "cells" (.arr []) f))
    | some (.arr l) => some (.obj (objSet "cells" (.arr (l.map stripCellU)) f))
    | some (.str s) => some (.obj (objSet "cells" (.str s) f))
    | some (.obj m) => some (.obj (objSet "cells" (.obj m) f))
    | some _ => none := rfl

/-- Resorting the keys of a normalized document and normalizing again is
the identity. -/
theorem stripTop_resort {f : List (String × Json)}
    (hnf : nodupKeysB f = true) (V : Json)
    (hV : ∀ l', sortJ V = .arr l' → l'.map stripCellU = l')
    (hVnull : sortJ V ≠ .null) (hVbool : ∀ b, sortJ V ≠ .bool b)
    (hVnum : ∀ n, sortJ V ≠ .num n) :
    stripTopU (sortJ (.obj (objSet "cells" V f))) =
      some (sortJ (.obj (objSet "cells" V f))) := by
  set f' := objSet "cells" V f with hf'
  have hnf' : nodupKeysB f' = true := nodupKeysB_objSet hnf
  rw [sortJ_obj]
  set h := sortOn Prod.fst (f'.map fun p => (p.1, sortJ p.2)) with hh
  have hGetC : objGet "cells" h = some (sortJ V) := by
    rw [hh, objGet_sorted_mapped hnf', hf', objGet_objSet_self,
      Option.map_some']
  have hperm : List.Perm h (f'.map fun p => (p.1, sortJ p.2)) :=
    sortOn_perm _ _
  have hnh : nodupKeysB h = true := by
    rw [nodupKeysB_perm hperm, nodupKeysB_map_sortJ]
    exact hnf'
  rw [stripTopU_obj_eq, hGetC]
  cases hSV : sortJ V with
  | null => exact absurd hSV hVnull
  | bool b => exact absurd hSV (hVbool b)
  | num n => exact absurd hSV (hVnum n)
  | str s =>
      show some (Json.obj (objSet "cells" (.str s) h)) = some (.obj h)
      rw [objSet_self_of_objGet hnh (by rw [hGetC, hSV])]
  | arr l' =>
      show some (Json.obj (objSet "cells" (.arr (l'.map stripCellU)) h)) =
        some (.obj h)
      rw [hV l' hSV, objSet_self_of_objGet hnh (by rw [hGetC, hSV])]
  | obj m' =>
      show some (Json.obj (objSet "cells" (.obj m') h)) = some (.obj h)
      rw [objSet_self_of_objGet hnh (by rw [hGetC, hSV])]

/-- The canonical form of a parseable document is a fixed point of the
canonicalizer. -/
theorem stripTopU_sortJ {j t : Json} (hwf : wfJ j = true)
    (h : stripTopU j = some t) :
    stripTopU (sortJ t) = some (sortJ t) := by
  cases j with
  | null => cases h
  | bool b => cases h
  | num n => cases h
  | str s => cases h
  | arr l => cases h
  | obj f =>
      obtain ⟨hnf, hvals⟩ := wfJ_obj_iff.1 hwf
      rw [stripTopU_obj_eq] at h
      cases hc : objGet "cells" f with
      | none =>
          rw [hc] at h
          cases h
          refine stripTop_resort hnf (.arr []) ?_ ?_ ?_ ?_
          · intro l' heq
            rw [sortJ_arr, List.map_nil] at heq
            cases heq
            rfl
          · rw [sortJ_arr, List.map_nil]
            exact fun hx => Json.noConfusion hx
          · intro b
            rw [sortJ_arr, List.map_nil]
            exact fun hx => Json.noConfusion hx
          · intro n
            rw [sortJ_arr, List.map_nil]
            exact fun hx => Json.noConfusion hx
      | some v =>
          rw [hc] at h
          have hcells_wf : ∀ x, objGet "cells" f = some x → wfJ x = true := by
            intro x hx
            exact hvals ("cells", x) (objGet_mem hx)
          cases v with
          | null => cases h
          | bool b => cases h
          | num n => cases h
          | str s =>
              cases h
              refine stripTop_resort hnf (.str s) ?_ ?_ ?_ ?_
              · intro l' heq
                rw [sortJ_str] at heq
                cases heq
              · rw [sortJ_str]
                exact fun hx => Json.noConfusion hx
              · intro b
                rw [sortJ_str]
                exact fun hx => Json.noConfusion hx
              · intro n
                rw [sortJ_str]
                exact fun hx => Json.noConfusion hx
          | obj m =>
              cases h
              refine stripTop_resort hnf (.obj m) ?_ ?_ ?_ ?_
              · intro l' heq
                rw [sortJ_obj] at heq
                cases heq
              · rw [sortJ_obj]
                exact fun hx => Json.noConfusion hx
              · intro b
                rw [sortJ_obj]
                exact fun hx => Json.noConfusion hx
              · intro n
                rw [sortJ_obj]
                exact fun hx => Json.noConfusion hx
          | arr l =>
              cases h
              have hlwf : ∀ c ∈ l, wfJ c = true :=
                wfJ_arr_iff.1 (hcells_wf (.arr l) hc)
              refine stripTop_resort hnf (.arr (l.map stripCellU)) ?_ ?_ ?_ ?_
              · intro l' heq
                rw [sortJ_arr] at heq
                cases heq
                rw [List.map_map, List.map_map, List.map_map]
                apply List.map_congr_left
                intro c hc2
                show stripCellU (sortJ (stripCellU c)) = sortJ (stripCellU c)
                exact stripCellU_sortJ c (hlwf c hc2)
              · rw [sortJ_arr]
                exact fun hx => Json.noConfusion hx
              · intro b
                rw [sortJ_arr]
                exact fun hx => Json.noConfusion hx
              · intro n
                rw [sortJ_arr]
                exact fun hx => Json.noConfusion hx

/-! ## The file-system model -/

/-- A readable file's content: raw bytes, or — for bytes that parse as
JSON — the parse tree (`nbDoc j` stands for any byte string whose JSON
parse is `j`; byte strings differing only in JSON whitespace are
identified). -/
inductive Content where
  | bytes (s : String) : Content
  | nbDoc (j : Json) : Content
  deriving DecidableEq

/-- File data: `none` models a file listed by the directory walk whose
`stat`/`open` raises `OSError`. -/
abbrev FData := Option Content

/-- The file system: finitely many files, keyed by absolute path.
Directories exist implicitly (a directory is any strict prefix of a file
path); empty directories and symlinks are not modelled. -/
abbrev FS := List (Path × FData)

def fsGet : FS → Path → Option FData
  | [], _ => none
  | e :: t, p => if e.1 = p then some e.2 else fsGet t p

/-- `Path.exists()` for a file path. -/
def fsExists (fs : FS) (p : Path) : Bool := (fsGet fs p).isSome

/-- `Path.exists()` / `Path.is_dir()` for a directory: some file lies
strictly below it. -/
def dirExists (fs : FS) (p : Path) : Bool :=
  fs.any (fun e => p.isPrefixOf e.1 && !(p == e.1))

/-- Overwrite or create a file (the effect of an atomic
temp-write-then-rename). -/
def fsSet (fs : FS) (p : Path) (c : Content) : FS :=
  if fs.any (fun e => e.1 = p) then
    fs.map (fun e => if e.1 = p then (p, some c) else e)
  else fs ++ [(p, some c)]

/-- `Path.unlink()`. -/
def fsRemove (fs : FS) (p : Path) : FS := fs.filter (fun e => e.1 ≠ p)

/-- Modelled from the spec: the missing `paths` module's pending-tree
root ("authors stage files under a pending tree"). -/
def PENDING : Path := ["pending"]

/-- Modelled from the spec: the missing `paths` module's preview-tree
root (the public mirror tree). -/
def PREVIEW : Path := ["preview"]

/-- Modelled from the spec: `IGNORED_FILES`, imported by `sync.py` from
code missing from the snapshot; §8.4's default ignored file names. -/
def IGNORED_FILES : List String :=
  [".DS_Store", ".gitignore", ".gitattributes", "RELEASES.txt"]

/-- Modelled from the spec: `IGNORED_DIRS`, imported by `sync.py` from
code missing from the snapshot; §8.4's default ignored directory. -/
def IGNORED_DIRS : List String := [".ipynb_checkpoints"]

/-- The filter `sync._iter_rel_files`'s walk applies: ignored directories
are pruned at every level, ignored file names are skipped. -/
def relNotIgnored (rel : Path) : Bool :=
  (!(IGNORED_FILES.contains (rel.getLastD ""))) &&
  rel.dropLast.all (fun d => !(IGNORED_DIRS.contains d))

/-- `sync._iter_rel_files`: the relative paths of non-ignored files
strictly under `root`, sorted by their posix form. -/
def iter_rel_files (fs : FS) (root : Path) : List Path :=
  sortOn posix (((fs.map Prod.fst).filterMap (fun q =>
    if root.isPrefixOf q ∧ q ≠ root then some (q.drop root.length)
    else none)).filter relNotIgnored)

/-! ## Content equality (`utils.py`) -/

/-- `pathlib.PurePath.suffix`: the extension of the final component
(empty for dotfiles and names without an interior dot). -/
def pySuffix (name : String) : String :=
  let cs := name.toList
  let n := cs.length
  match ((List.range n).filter fun i => cs.getD i ' ' = '.').getLast? with
  | some i => if 0 < i ∧ i < n - 1 then String.mk (cs.drop i) else ""
  | none => ""

/-- `utils._is_notebook`: `path.suffix.lower() == ".ipynb"`. -/
def isNotebookPath (p : Path) : Bool :=
  (⟨(pySuffix (p.getLastD "")).data.map Char.toLower⟩ : String) == ".ipynb"

/-- `utils.files_equal` applied to two readable contents: size comparison
then streamed SHA-256 comparison, with the hash modelled collision-free —
byte equality.  (Unreadable files raise before reaching it; callers
handle that case.) -/
def files_equal (a b : Content) : Bool := decide (a = b)

/-- `utils._normalized_notebook_text` on a file's content: defined when
the bytes parse as JSON and the document shape is accepted. -/
def normalized_notebook_text (c : Content) : Option String :=
  match c with
  | .nbDoc j => normalizedNotebookText j
  | .bytes _ => none

/-- `utils.notebook_files_equal`: equality of normalized texts, falling
back to byte equality when normalization of either side fails. -/
def notebook_files_equal (a b : Content) : Bool :=
  match normalized_notebook_text a, normalized_notebook_text b with
  | some ta, some tb => ta == tb
  | _, _ => files_equal a b

/-- `utils.content_equal`: notebook-aware equality, dispatching on the
`.ipynb` extension of both paths. -/
def content_equal (pa pb : Path) (a b : Content) : Bool :=
  if isNotebookPath pa && isNotebookPath pb then notebook_files_equal a b
  else files_equal a b

/-! ## The sync planner (`sync.py`) -/

/-- One manifest entry (`utils.Entry`). -/
structure Entry where
  raw : String
  rel : Path
  is_dir : Bool
  deriving DecidableEq

/-- `sync.FileOp`. -/
structure FileOp where
  src : Path
  dst : Path
  kind : String
  deriving DecidableEq

/-- The per-file decision of `build_sync_plan` (sync.py lines 101-112 and
116-129): `none` = no operation; a missing destination is a copy; a
destination that is present but compares different — or whose comparison
raises `OSError` (an unreadable side) — is an update, as is everything
under `force`. -/
def planFile (force : Bool) (fs : FS) (src dst : Path) : Option String :=
  match fsGet fs dst with
  | none => some "copy"
  | some dstData =>
      match fsGet fs src, dstData with
      | some (some ca), some cb =>
          if force || !(content_equal src dst ca cb) then some "update"
          else none
      | _, _ => some "update"

/-- One iteration of the `build_sync_plan` entry loop: the operations the
entry contributes and its per-entry updated flag. -/
def entry_ops (force : Bool) (fs : FS) (e : Entry) : List FileOp × Bool :=
  if e.is_dir then
    let src_dir := PENDING ++ e.rel
    if !(dirExists fs src_dir) then ([], false)
    else
      (iter_rel_files fs src_dir).foldl (fun acc rel =>
        let src := src_dir ++ rel
        let dst := PREVIEW ++ e.rel ++ rel
        match planFile force fs src dst with
        | some k => (acc.1 ++ [⟨src, dst, k⟩], true)
        | none => acc) ([], false)
  else
    let src := PENDING ++ e.rel
    let dst := PREVIEW ++ e.rel
    if !(fsExists fs src) then ([], false)
    else
      match planFile force fs src dst with
      | some k => ([⟨src, dst, k⟩], true)
      | none => ([], false)

/-- Python dict write for the per-entry updated map. -/
def upsertFlag (m : List (String × Bool)) (k : String) (b : Bool) :
    List (String × Bool) :=
  if m.any (fun q => q.1 = k) then
    m.map (fun q => if q.1 = k then (k, b) else q)
  else m ++ [(k, b)]

/-- `sync.build_sync_plan`: the operation list and the per-entry updated
map (`entry.raw ↦ updated?`). -/
def build_sync_plan (entries : List Entry) (force_full_resync : Bool)
    (fs : FS) : List FileOp × List (String × Bool) :=
  entries.foldl (fun acc e =>
    let r := entry_ops force_full_resync fs e
    (acc.1 ++ r.1, upsertFlag acc.2 e.raw r.2)) ([], [])

/-- `sync._atomic_copy` on the model: write `src`'s content over `dst`
(chunked copy to a temp sibling, then `os.replace`).  A missing or
unreadable source raises in the source; plans only contain readable
sources, and the model leaves the tree unchanged in that unreachable
case. -/
def atomic_copy (fs : FS) (op : FileOp) : FS :=
  match fsGet fs op.src with
  | some (some c) => fsSet fs op.dst c
  | _ => fs

/-- `sync._apply_file_ops`. -/
def apply_file_ops (ops : List FileOp) (dry_run : Bool) (fs : FS) : FS :=
  ops.foldl (fun f op => if dry_run then f else atomic_copy f op) fs

/-- The first `k` iterations of the `_apply_file_ops` loop — the state a
`KeyboardInterrupt` arriving after `k` operations leaves behind. -/
def apply_file_ops_upto (k : Nat) (ops : List FileOp) (dry_run : Bool)
    (fs : FS) : FS :=
  (ops.take k).foldl (fun f op => if dry_run then f else atomic_copy f op) fs

/-- `sync._list_orphans`: files under the preview tree that are neither a
tracked file nor under a tracked folder, sorted by posix path. -/
def list_orphans (entries : List Entry) (fs : FS) : List Path :=
  let preview_files := iter_rel_files fs PREVIEW
  let tracked_files := (entries.filter fun e => !e.is_dir).map fun e =>
    posix e.rel
  let tracked_dirs := (entries.filter fun e => e.is_dir).map fun e => e.rel
  sortOn posix (preview_files.filter fun rel =>
    (!(tracked_files.contains (posix rel))) &&
    (!(tracked_dirs.any fun d => d.isPrefixOf rel)))

/-- `sync._remove_files` (the non-dry-run effect; symlinks are not
modelled, removal errors are out of scope). -/
def remove_files (paths : List Path) (fs : FS) : FS :=
  paths.foldl (fun f rel => fsRemove f (PREVIEW ++ rel)) fs

/-! ## Lock and recovery marker (`sync.py`) -/

/-- `sync.LOCK_TTL_SECS`. -/
def LOCK_TTL_SECS : Int := 30

/-- The parse outcome of the lock file (sync.py lines 352-371): absent;
corrupt (unreadable, or a missing/unparseable `pid`/`time` field); or a
valid record. -/
inductive LockFile where
  | absent : LockFile
  | corrupt : LockFile
  | valid (pid : Int) (time : Int) : LockFile
  deriving DecidableEq

/-- `sync._is_pid_alive`: `alive` is the `os.kill(pid, 0)` oracle;
non-positive pids are never alive. -/
def is_pid_alive (alive : Int → Bool) (pid : Int) : Bool :=
  if pid ≤ 0 then false else alive pid

/-- `sync._acquire_single_writer_lock`: returns ((ok, reason), lock file
state after the call).  `raceLoses` is the exclusive-create race: another
process creates the file between the staleness check and `os.open`
(`FileExistsError` → busy; the competitor's fresh lock itself is outside
the model, no theorem reads the state after a lost race). -/
def acquire_single_writer_lock (st : LockFile) (alive : Int → Bool)
    (now pid ttl : Int) (raceLoses : Bool) : (Bool × String) × LockFile :=
  let tryCreate : (Bool × String) × LockFile :=
    if raceLoses then ((false, "busy"), .absent)
    else ((true, "ok"), .valid pid now)
  match st with
  | .absent => tryCreate
  | .corrupt => tryCreate
  | .valid opid t =>
      if (!(is_pid_alive alive opid)) && (now - t > ttl) then tryCreate
      else ((false, "busy"), st)

/-- The recovery marker file's parse outcome. -/
inductive MarkerFile where
  | absent : MarkerFile
  | corrupt : MarkerFile
  | valid (pid : Int) (time : Int) : MarkerFile
  deriving DecidableEq

/-- The marker age computed at sync.py lines 414-425: a missing or
unparseable `time` field counts as `LOCK_TTL_SECS + 1` (always stale). -/
def markerAge (m : MarkerFile) (now : Int) : Int :=
  match m with
  | .valid _ t => now - t
  | _ => LOCK_TTL_SECS + 1

/-- `str.strip()` over the code points (ASCII and Unicode whitespace at
both ends). -/
def trimChars (l : List Char) : List Char :=
  ((l.dropWhile Char.isWhitespace).reverse.dropWhile Char.isWhitespace).reverse

/-- `str.strip()` as a String function. -/
def strTrim (s : String) : String := ⟨trimChars s.data⟩

/-- Code-point prefix test, for `str.startswith`. -/
def charsPrefix : List Char → List Char → Bool
  | [], _ => true
  | _ :: _, [] => false
  | x :: xs, y :: ys => x == y && charsPrefix xs ys

/-- `s.startswith(p)`. -/
def strStartsWith (s p : String) : Bool := charsPrefix p.data s.data

/-- `s.endswith(p)`. -/
def strEndsWith (s p : String) : Bool :=
  charsPrefix p.data.reverse s.data.reverse

/-- `s.split(sep)` for a one-character separator. -/
def splitChars (sep : Char) : List Char → List (List Char)
  | [] => [[]]
  | c :: rest =>
      if c == sep then [] :: splitChars sep rest
      else
        match splitChars sep rest with
        | [] => [[c]]
        | h :: t => (c :: h) :: t

/-- `s.replace(a, b)` for one-character pattern and replacement. -/
def strReplaceChar (a b : Char) (s : String) : String :=
  ⟨s.data.map fun c => if c == a then b else c⟩

/-- The affirmative prompt answers. -/
def isYes (raw : String) : Bool :=
  strTrim raw == "y" || strTrim raw == "Y" || strTrim raw == "yes"

/-- `sync._check_marker_and_maybe_force_full_resync`: `stdin` is the line
the prompt would read (`none` = EOF); `Except.error ()` is the
`PromptAborted` the EOF raises. -/
def check_marker_and_maybe_force_full_resync (m : MarkerFile)
    (assume_yes : Bool) (now : Int) (stdin : Option String) :
    Except Unit Bool :=
  match m with
  | .absent => .ok false
  | _ =>
      if assume_yes && (markerAge m now > LOCK_TTL_SECS) then .ok true
      else
        match stdin with
        | none => .error ()
        | some raw => .ok (isYes raw)

/-- `sync._prompt_yes`: reads one line; on EOF it raises `PromptAborted`
(line 182), but its own `except Exception` handler (lines 187-188)
catches that raise and returns `False` — so EOF is answered as "no".
Unlike the marker prompt, there is no `except PromptAborted: raise`
here; only a `KeyboardInterrupt` would escape.  `stdin` is the line read
(`none` = EOF). -/
def prompt_yes (stdin : Option String) : Bool :=
  match stdin with
  | none => false
  | some raw => isYes raw

/-! ## Notebook stripping in preview (`sync.py` lines 230-329) -/

/-- `sync._is_ipynb`. -/
def is_ipynb (p : Path) : Bool :=
  (⟨(pySuffix (p.getLastD "")).data.map Char.toLower⟩ : String) == ".ipynb"

/-- Python truthiness of a JSON value. -/
def jsonTruthy : Json → Bool
  | .null => false
  | .bool b => b
  | .num n => !(n == 0)
  | .str s => !(s == "")
  | .arr l => !l.isEmpty
  | .obj l => !l.isEmpty

/-- The per-cell mutation of `_strip_notebook_outputs_in_place` (lines
279-297): reset truthy outputs, clear a set execution count, drop
`metadata.execution`; unlike the utils normalizer it keeps the cell id
and writes each field only when it changes. -/
def stripCellSync (c : Json) : Json :=
  match c with
  | .obj g =>
      if isCellTypeCode g then
        let g1 := match objGet "outputs" g with
          | some v => if jsonTruthy v then objSet "outputs" (.arr []) g else g
          | none => g
        let g2 := match objGet "execution_count" g1 with
          | some .null => g1
          | some _ => objSet "execution_count" .null g1
          | none => g1
        let g3 := match objGet "metadata" g2 with
          | some (.obj md) =>
              if md.any (fun p => p.1 = "execution") then
                objSet "metadata" (.obj (objPop "execution" md)) g2
              else g2
          | _ => g2
        .obj g3
      else .obj g
  | x => x

/-- The whole-notebook strip `_strip_notebook_outputs_in_place` performs
before `nbformat.writes`. -/
def stripSyncTop (j : Json) : Json :=
  match j with
  | .obj f =>
      match objGet "cells" f with
      | some (.arr l) => .obj (objSet "cells" (.arr (l.map stripCellSync)) f)
      | _ => .obj f
  | x => x

/-- `sync._strip_notebook_outputs_in_place` on the model: rewrite a
parseable notebook with its stripped document; a missing, unreadable or
unparseable file is left unchanged (the source returns False and the
caller continues). -/
def strip_notebook_outputs_in_place (fs : FS) (p : Path) : FS :=
  match fsGet fs p with
  | some (some (.nbDoc j)) => fsSet fs p (.nbDoc (stripSyncTop j))
  | _ => fs

/-- `sync._iter_preview_notebooks_for_strip`. -/
def iter_preview_notebooks_for_strip (ops : List FileOp)
    (entries : List Entry) (existed_before : List (String × Bool))
    (fs : FS) : List Path :=
  let touched := (ops.filter fun op => is_ipynb op.dst).map fun op => op.dst
  let firstTime := entries.foldl (fun acc e =>
    if e.is_dir && !((existed_before.lookup e.raw).getD false) then
      acc ++ ((iter_rel_files fs (PREVIEW ++ e.rel)).filter fun rel =>
        is_ipynb (PREVIEW ++ e.rel ++ rel)).map fun rel =>
          PREVIEW ++ e.rel ++ rel
    else acc) []
  sortOn posix (touched ++ firstTime).dedup

/-- `sync.strip_notebook_outputs_in_preview`: no-op on dry-run, else strip
every target. -/
def strip_notebook_outputs_in_preview (ops : List FileOp)
    (entries : List Entry) (existed_before : List (String × Bool))
    (dry_run : Bool) (fs : FS) : FS :=
  if dry_run then fs
  else (iter_preview_notebooks_for_strip ops entries existed_before fs).foldl
    strip_notebook_outputs_in_place fs

/-! ## `sync.run_sync` -/

/-- The environment a run of `run_sync` observes: the liveness oracle and
clock, the lock race, the two prompt inputs (`none` = EOF), and where (if
anywhere) a `KeyboardInterrupt` arrives. -/
structure SyncEnv where
  alive : Int → Bool
  now : Int
  pid : Int
  raceLoses : Bool
  stdinMarker : Option String
  stdinOrphan : Option String
  interruptApplyAfter : Option Nat
  interruptStrip : Bool

/-- The mutable state `run_sync` touches. -/
structure World where
  fs : FS
  lock : LockFile
  marker : MarkerFile
  manifest : List Entry
  hasPendingRoot : Bool
  previewIsSymlink : Bool

/-- How a call of `run_sync` ends: a returned exit code, or a
`KeyboardInterrupt` escaping the function (no other exception escapes:
the marker prompt's `PromptAborted` is caught and turned into exit 130,
and the orphan prompt swallows its own). -/
inductive SyncResult where
  | exit (code : Int) : SyncResult
  | excKeyboardInterrupt : SyncResult
  deriving DecidableEq

/-- The `try/finally` at sync.py lines 579-587: prune empty preview
directories (invisible to the file-only model), print the summary, return
0, and in the `finally` remove the marker and release the lock. -/
def finishSync (w : World) : SyncResult × World :=
  (.exit 0, { w with marker := .absent, lock := .absent })

/-- sync.py lines 517-587: the tail of `run_sync` from the notebook-strip
phase on (strip, orphan removal with its prompt, summary and cleanup). -/
def run_sync_tail (assume_yes dry_run : Bool) (env : SyncEnv) (w : World)
    (entries : List Entry) (existed_before : List (String × Bool))
    (ops : List FileOp) : SyncResult × World :=
  if env.interruptStrip then
    (.exit 130, { w with marker := .absent, lock := .absent })
  else
    let fs3 := strip_notebook_outputs_in_preview ops entries existed_before
      dry_run w.fs
    let w3 : World := { w with fs := fs3 }
    let orphans := list_orphans entries w3.fs
    if orphans.isEmpty then finishSync w3
    else if dry_run then finishSync w3
    else if assume_yes then
      finishSync { w3 with fs := remove_files orphans w3.fs }
    else if prompt_yes env.stdinOrphan then
      finishSync { w3 with fs := remove_files orphans w3.fs }
    else finishSync w3

/-- `sync.run_sync` (sync.py lines 464-587).  Console output is not
modelled; `PREVIEW.mkdir` and `_prune_empty_dirs` are invisible in the
file-only tree; a `KeyboardInterrupt` inside the file-operation loop
leaves the prefix of operations already applied. -/
def run_sync (assume_yes dry_run : Bool) (env : SyncEnv) (w : World) :
    SyncResult × World :=
  if !w.hasPendingRoot then (.exit 1, w)
  else if w.previewIsSymlink then (.exit 1, w)
  else
    let acq := acquire_single_writer_lock w.lock env.alive env.now env.pid
      LOCK_TTL_SECS env.raceLoses
    let w1 : World := { w with lock := acq.2 }
    if !acq.1.1 then
      if acq.1.2 == "busy" then (.exit 75, w1) else (.exit 1, w1)
    else
      match check_marker_and_maybe_force_full_resync w1.marker assume_yes
        env.now env.stdinMarker with
      | .error _ => (.exit 130, { w1 with lock := .absent })
      | .ok force_full =>
          let w2 : World := { w1 with marker := .valid env.pid env.now }
          let entries := w2.manifest
          let existed_before := entries.filterMap fun e =>
            if e.is_dir then some (e.raw, dirExists w2.fs (PREVIEW ++ e.rel))
            else none
          let ops := (build_sync_plan entries force_full w2.fs).1
          match env.interruptApplyAfter with
          | some k =>
              if k < ops.length then
                (.excKeyboardInterrupt,
                 { w2 with fs := apply_file_ops_upto k ops dry_run w2.fs })
              else
                run_sync_tail assume_yes dry_run env
                  { w2 with fs := apply_file_ops ops dry_run w2.fs }
                  entries existed_before ops
          | none =>
              run_sync_tail assume_yes dry_run env
                { w2 with fs := apply_file_ops ops dry_run w2.fs }
                entries existed_before ops

/-! ## The folder change summary (`utils.dir_diff`) -/

/-- The walk filter of `utils._list_rel_files`: the config-driven ignore
matchers are the external Config collaborator and arrive as the two
predicates (base name, relative posix path) → ignored?. -/
def relKeptBy (fileIgn dirIgn : String → String → Bool) (rel : Path) :
    Bool :=
  (!(fileIgn (rel.getLastD "") (posix rel))) &&
  (List.range (rel.length - 1)).all fun i =>
    !(dirIgn (rel.getD i "") (posix (rel.take (i + 1))))

/-- `utils._list_rel_files`: non-ignored files strictly under `root`,
sorted by posix form (symlinks are not modelled). -/
def list_rel_files (fileIgn dirIgn : String → String → Bool) (fs : FS)
    (root : Path) : List Path :=
  sortOn posix (((fs.map Prod.fst).filterMap (fun q =>
    if root.isPrefixOf q ∧ q ≠ root then some (q.drop root.length)
    else none)).filter (relKeptBy fileIgn dirIgn))

/-- The per-file verdict inside `dir_diff`'s common-file loop: `some true`
= equal bytes, `some false` = unequal, `none` = the comparison raised
`OSError` (a side is unreadable or missing). -/
def filesEqualAt (fs : FS) (a b : Path) : Option Bool :=
  match fsGet fs a, fsGet fs b with
  | some (some ca), some (some cb) => some (files_equal ca cb)
  | _, _ => none

/-- Membership in a Python set of posix strings. -/
def inPosixSet (l : List Path) (p : Path) : Bool :=
  l.any fun q => posix q == posix p

/-- A Python `set` of path-posix strings, as the list of paths that
produced it: drop posix-duplicates (`Path(p)` reconstruction from the
posix string is the identity for the walk's paths, so the set elements
are the paths themselves). -/
def dedupByPosix : List Path → List Path
  | [] => []
  | p :: t =>
      if t.any (fun q => posix q == posix p) then dedupByPosix t
      else p :: dedupByPosix t

/-- `utils.dir_diff`: `(added, removed, changed)`, each sorted by posix
path; `changed` uses raw byte equality (`files_equal`), and a comparison
error classifies the file as changed. -/
def dir_diff (fileIgn dirIgn : String → String → Bool) (fs : FS)
    (src dst : Path) : List Path × List Path × List Path :=
  let src_files := list_rel_files fileIgn dirIgn fs src
  let dst_files := list_rel_files fileIgn dirIgn fs dst
  let added := sortOn posix (dedupByPosix (src_files.filter fun p =>
    !(inPosixSet dst_files p)))
  let removed := sortOn posix (dedupByPosix (dst_files.filter fun p =>
    !(inPosixSet src_files p)))
  let common := sortOn posix (dedupByPosix (src_files.filter fun p =>
    inPosixSet dst_files p))
  let changed := common.filter fun p =>
    match filesEqualAt fs (src ++ p) (dst ++ p) with
    | some true => false
    | _ => true
  (added, removed, changed)

/-! ## Path resolution (`utils.py` lines 342-496) -/

/-- `utils.DEFAULT_IGNORED_FILES`. -/
def DEFAULT_IGNORED_FILES : List String :=
  [".DS_Store", ".gitignore", ".gitattributes", "RELEASES.txt"]

/-- `utils.DEFAULT_IGNORED_DIRS`. -/
def DEFAULT_IGNORED_DIRS : List String := [".ipynb_checkpoints"]

/-- `utils._is_ignored_file`. -/
def is_ignored_file (name : String) : Bool :=
  DEFAULT_IGNORED_FILES.contains name

/-- `utils._is_ignored_dir` (`name.rstrip("/")`). -/
def is_ignored_dir (name : String) : Bool :=
  DEFAULT_IGNORED_DIRS.contains ⟨(name.data.reverse.dropWhile fun c => c == '/').reverse⟩

/-- All nonempty strict prefixes of a path: the directories a file's path
passes through. -/
def properPrefixes (p : Path) : List Path :=
  (List.range (p.length - 1)).map fun i => p.take (i + 1)

/-- `utils.scan_pending_tree`: `(files, dirs)` relative to the pending
root, default-ignore filtered and sorted.  In the file-only model the
directory listing is the set of strict prefixes of file paths (with
ignored-directory pruning); empty directories are not representable. -/
def scan_pending_tree (fs : FS) : List Path × List Path :=
  let raw := (fs.map Prod.fst).filterMap fun q =>
    if PENDING.isPrefixOf q ∧ q ≠ PENDING then some (q.drop PENDING.length)
    else none
  let files := raw.filter fun rel =>
    (rel.dropLast.all fun d => !(is_ignored_dir d)) &&
    (!(is_ignored_file (rel.getLastD "")))
  let dirs := ((raw.foldl (fun acc rel => acc ++ properPrefixes rel)
    []).dedup).filter fun d => d.all fun c => !(is_ignored_dir c)
  (sortOn posix files, sortOn posix dirs)

/-- `utils.Resolution` together with the payload fields of
`utils.Resolved`. -/
inductive Resolved where
  | file (rel : Path) : Resolved
  | dir (rel : Path) : Resolved
  | notFound : Resolved
  | ambiguous (candidates : List (Path × String)) : Resolved
  | error (msg : String) : Resolved
  deriving DecidableEq

/-- `utils.normalize_input_token`: trim, backslashes to slashes, strip a
leading `./`.  Unicode NFC normalization is an external library call and
is modelled as the identity (the claims under study do not concern
character encodings). -/
def normalize_input_token (token : String) : String :=
  let s := strTrim token
  let s := strReplaceChar '\\' '/' s
  if strStartsWith s "./" then s.drop 2 else s

/-- `pathlib` component parsing: split on `/`, collapse empty components,
drop `.` components (`..` is kept, as `pathlib` keeps it). -/
def toPathComps (s : String) : Path :=
  ((splitChars '/' s.data).map fun l => (⟨l⟩ : String)).filter
    fun c => c ≠ "" && c ≠ "."

/-- Modelled: the absolute location of the working directory, for
resolving absolute tokens; `Path.resolve`'s symlink and `..` handling is
not modelled. -/
def CWD : Path := ["cwd"]

/-- `utils._rel_from_absolute_under_pending`. -/
def rel_from_absolute_under_pending (comps : Path) : Option Path :=
  if (CWD ++ PENDING).isPrefixOf comps then
    some (comps.drop (CWD ++ PENDING).length)
  else none

/-- The basename candidates (files then folders) matching `base` in the
scanned pending tree — the shared computation of utils.py lines 457-467
and 479-487. -/
def basenameCandidates (fs : FS) (base : String) : List (Path × String) :=
  let scan := scan_pending_tree fs
  ((scan.1.filter fun f => f.getLastD "" == base).map fun f =>
    (f, "file")) ++
  ((scan.2.filter fun d => d.getLastD "" == base).map fun d =>
    (d, "folder"))

/-- The basename-search fallback of `resolve_item` (utils.py lines
479-496). -/
def basenameSearch (fs : FS) (base : String) : Resolved :=
  let cand := basenameCandidates fs base
  match cand with
  | [] => .notFound
  | [(rel, label)] =>
      if label == "folder" then .dir rel else .file rel
  | _ => .ambiguous (sortOn (fun t => posix t.1) cand)

/-- `utils.resolve_item`.  `hasRoot` is `ensure_repo_root_present()`
(whether the `pending/` directory exists — an empty pending root is not
representable in the file-only tree, so it is a parameter). -/
def resolve_item (hasRoot : Bool) (fs : FS) (token : String) : Resolved :=
  if !hasRoot then
    .error
      "This command must be run from the repository root (missing 'pending/')."
  else
    let tok := normalize_input_token token
    if strStartsWith tok "/" then
      match rel_from_absolute_under_pending (toPathComps tok) with
      | none => .error ("Absolute path must be inside pending/: " ++ token)
      | some rel =>
          if dirExists fs (PENDING ++ rel) then .dir rel
          else if fsExists fs (PENDING ++ rel) then .file rel
          else .notFound
    else
      let tok2 := if strStartsWith tok "pending/" then tok.drop 8 else tok
      let prefer_dir := strEndsWith tok2 "/"
      let tokNS := if prefer_dir then tok2.dropRight 1 else tok2
      let comps := toPathComps tokNS
      let base := comps.getLastD ""
      if fsExists fs (PENDING ++ comps) || dirExists fs (PENDING ++ comps)
      then
        let cand0 := basenameCandidates fs base
        if 1 < cand0.length then
          .ambiguous (sortOn (fun t => posix t.1) cand0)
        else if dirExists fs (PENDING ++ comps) then .dir comps
        else if prefer_dir then basenameSearch fs base
        else .file comps
      else basenameSearch fs base

/-- The basename `resolve_item` disambiguates on for a relative token: the
final component of the normalized token after stripping a `pending/`
prefix and a trailing slash (utils.py line 458 / 481). -/
def resolveBase (token : String) : String :=
  let tok := normalize_input_token token
  let tok2 := if strStartsWith tok "pending/" then tok.drop 8 else tok
  let tokNS := if strEndsWith tok2 "/" then tok2.dropRight 1 else tok2
  (toPathComps tokNS).getLastD ""

/-! ## Facts about the file-system model -/

theorem fsGet_isSome_of_key_mem {fs : FS} {p : Path}
    (h : p ∈ fs.map Prod.fst) : (fsGet fs p).isSome = true := by
  induction fs with
  | nil => simp at h
  | cons e t ih =>
      by_cases he : e.1 = p
      · rw [show fsGet (e :: t) p = if e.1 = p then some e.2 else fsGet t p
          from rfl, if_pos he]
        rfl
      · rw [show fsGet (e :: t) p = if e.1 = p then some e.2 else fsGet t p
          from rfl, if_neg he]
        rcases List.mem_cons.1 h with h1 | h1
        · exact absurd h1.symm he
        · exact ih h1

theorem key_mem_of_fsGet_isSome {fs : FS} {p : Path}
    (h : (fsGet fs p).isSome = true) : p ∈ fs.map Prod.fst := by
  induction fs with
  | nil => simp [fsGet] at h
  | cons e t ih =>
      by_cases he : e.1 = p
      · rw [List.map_cons, he]
        exact List.mem_cons_self _ _
      · rw [show fsGet (e :: t) p = if e.1 = p then some e.2 else fsGet t p
          from rfl, if_neg he] at h
        exact List.mem_cons_of_mem _ (ih h)

theorem fsGet_fsSet_self (fs : FS) (p : Path) (c : Content) :
    fsGet (fsSet fs p c) p = some (some c) := by
  rw [fsSet]
  by_cases h : fs.any (fun e => e.1 = p)
  · rw [if_pos h]
    simp only [List.any_eq_true, decide_eq_true_eq] at h
    obtain ⟨e0, he0, he0p⟩ := h
    induction fs with
    | nil => simp at he0
    | cons e t ih =>
        by_cases he : e.1 = p
        · rw [List.map_cons, show (if e.1 = p then (p, some c) else e) =
            (p, some c) from by rw [if_pos he],
            show fsGet ((p, some c) :: List.map
              (fun e => if e.1 = p then (p, some c) else e) t) p =
              if p = p then some (some c) else fsGet (List.map
                (fun e => if e.1 = p then (p, some c) else e) t) p
              from rfl, if_pos rfl]
        · rcases List.mem_cons.1 he0 with h1 | h1
          · exact absurd (by rw [h1] at he0p; exact he0p) he
          · rw [List.map_cons, show (if e.1 = p then (p, some c) else e) = e
              from by rw [if_neg he],
              show fsGet (e :: List.map
                (fun e => if e.1 = p then (p, some c) else e) t) p =
                if e.1 = p then some e.2 else fsGet (List.map
                  (fun e => if e.1 = p then (p, some c) else e) t) p
                from rfl, if_neg he]
            exact ih h1
  · rw [if_neg h]
    simp only [List.any_eq_true, decide_eq_true_eq] at h
    push_neg at h
    induction fs with
    | nil =>
        rw [List.nil_append, show fsGet [(p, some c)] p =
          if p = p then some (some c) else fsGet [] p from rfl, if_pos rfl]
    | cons e t ih =>
        have he : e.1 ≠ p := h e (List.mem_cons_self e t)
        rw [List.cons_append, show fsGet (e :: (t ++ [(p, some c)])) p =
          if e.1 = p then some e.2 else fsGet (t ++ [(p, some c)]) p
          from rfl, if_neg he]
        exact ih fun e2 he2 => h e2 (List.mem_cons_of_mem _ he2)

theorem fsGet_fsSet_other {p' p : Path} (hne : p' ≠ p) (fs : FS)
    (c : Content) : fsGet (fsSet fs p c) p' = fsGet fs p' := by
  rw [fsSet]
  by_cases h : fs.any (fun e => e.1 = p)
  · rw [if_pos h]
    clear h
    induction fs with
    | nil => rfl
    | cons e t ih =>
        by_cases he : e.1 = p
        · have he2 : p ≠ p' := fun hh => hne hh.symm
          have he3 : e.1 ≠ p' := by rw [he]; exact he2
          rw [List.map_cons, show (if e.1 = p then (p, some c) else e) =
            (p, some c) from by rw [if_pos he],
            show fsGet ((p, some c) :: List.map
              (fun e => if e.1 = p then (p, some c) else e) t) p' =
              if p = p' then some (some c) else fsGet (List.map
                (fun e => if e.1 = p then (p, some c) else e) t) p'
              from rfl, if_neg he2,
            show fsGet (e :: t) p' =
              if e.1 = p' then some e.2 else fsGet t p' from rfl,
            if_neg he3, ih]
        · rw [List.map_cons, show (if e.1 = p then (p, some c) else e) = e
            from by rw [if_neg he],
            show fsGet (e :: List.map
              (fun e => if e.1 = p then (p, some c) else e) t) p' =
              if e.1 = p' then some e.2 else fsGet (List.map
                (fun e => if e.1 = p then (p, some c) else e) t) p'
              from rfl,
            show fsGet (e :: t) p' =
              if e.1 = p' then some e.2 else fsGet t p' from rfl, ih]
  · rw [if_neg h]
    clear h
    induction fs with
    | nil =>
        rw [List.nil_append, show fsGet [(p, some c)] p' =
          if p = p' then some (some c) else fsGet ([] : FS) p' from rfl,
          if_neg (fun hh => hne hh.symm)]
    | cons e t ih =>
        rw [List.cons_append, show fsGet (e :: (t ++ [(p, some c)])) p' =
          if e.1 = p' then some e.2 else fsGet (t ++ [(p, some c)]) p'
          from rfl,
          show fsGet (e :: t) p' =
            if e.1 = p' then some e.2 else fsGet t p' from rfl, ih]

theorem keys_fsSet (fs : FS) (p : Path) (c : Content) :
    (fsSet fs p c).map Prod.fst = fs.map Prod.fst ∨
    (fsSet fs p c).map Prod.fst = fs.map Prod.fst ++ [p] := by
  rw [fsSet]
  by_cases h : fs.any (fun e => e.1 = p)
  · left
    rw [if_pos h, List.map_map]
    apply List.map_congr_left
    intro e _
    by_cases he : e.1 = p
    · simp [he]
    · simp [he]
  · right
    rw [if_neg h, List.map_append]
    rfl

theorem fsSet_readable {fs : FS} (p : Path) (c : Content)
    (h : ∀ e ∈ fs, (Prod.snd e).isSome = true) :
    ∀ e ∈ fsSet fs p c, (Prod.snd e).isSome = true := by
  intro e he
  rw [fsSet] at he
  by_cases hany : fs.any (fun e => e.1 = p)
  · rw [if_pos hany] at he
    obtain ⟨e0, he0, rfl⟩ := List.mem_map.1 he
    by_cases he0p : e0.1 = p
    · simp [he0p]
    · simp only [he0p, if_neg, not_false_iff]
      exact h e0 he0
  · rw [if_neg hany] at he
    rcases List.mem_append.1 he with h1 | h1
    · exact h e h1
    · simp only [List.mem_singleton] at h1
      rw [h1]
      rfl

/-- The keys after applying operations: the original keys followed by
freshly created destinations. -/
theorem keys_apply_file_ops (ops : List FileOp) (fs : FS) :
    ∃ extra, (apply_file_ops ops false fs).map Prod.fst =
      fs.map Prod.fst ++ extra ∧ ∀ k ∈ extra, ∃ op ∈ ops, k = op.dst := by
  induction ops generalizing fs with
  | nil => exact ⟨[], by simp [apply_file_ops]⟩
  | cons op rest ih =>
      have hstep : apply_file_ops (op :: rest) false fs =
          apply_file_ops rest false (atomic_copy fs op) := rfl
      rw [hstep]
      cases hsrc : fsGet fs op.src with
      | none =>
          have hac : atomic_copy fs op = fs := by rw [atomic_copy, hsrc]
          rw [hac]
          obtain ⟨extra, hkeys, hmem⟩ := ih fs
          exact ⟨extra, hkeys, fun k hk =>
            have ⟨op2, hop2, hk2⟩ := hmem k hk
            ⟨op2, List.mem_cons_of_mem _ hop2, hk2⟩⟩
      | some d =>
          cases d with
          | none =>
              have hac : atomic_copy fs op = fs := by rw [atomic_copy, hsrc]
              rw [hac]
              obtain ⟨extra, hkeys, hmem⟩ := ih fs
              exact ⟨extra, hkeys, fun k hk =>
                have ⟨op2, hop2, hk2⟩ := hmem k hk
                ⟨op2, List.mem_cons_of_mem _ hop2, hk2⟩⟩
          | some c =>
              have hac : atomic_copy fs op = fsSet fs op.dst c := by
                rw [atomic_copy, hsrc]
              rw [hac]
              obtain ⟨extra, hkeys, hmem⟩ := ih (fsSet fs op.dst c)
              rcases keys_fsSet fs op.dst c with hk | hk
              · rw [hk] at hkeys
                exact ⟨extra, hkeys, fun k hkm =>
                  have ⟨op2, hop2, hk2⟩ := hmem k hkm
                  ⟨op2, List.mem_cons_of_mem _ hop2, hk2⟩⟩
              · rw [hk, List.append_assoc] at hkeys
                refine ⟨[op.dst] ++ extra, hkeys, ?_⟩
                intro k hkm
                rcases List.mem_append.1 hkm with h1 | h1
                · simp only [List.mem_singleton] at h1
                  exact ⟨op, List.mem_cons_self _ _, h1⟩
                · have ⟨op2, hop2, hk2⟩ := hmem k h1
                  exact ⟨op2, List.mem_cons_of_mem _ hop2, hk2⟩

theorem apply_file_ops_readable (ops : List FileOp) {fs : FS}
    (h : ∀ e ∈ fs, (Prod.snd e).isSome = true) :
    ∀ e ∈ apply_file_ops ops false fs, (Prod.snd e).isSome = true := by
  induction ops generalizing fs with
  | nil => exact h
  | cons op rest ih =>
      have hstep : apply_file_ops (op :: rest) false fs =
          apply_file_ops rest false (atomic_copy fs op) := rfl
      rw [hstep]
      apply ih
      rw [atomic_copy]
      cases hsrc : fsGet fs op.src with
      | none => exact h
      | some d =>
          cases d with
          | none => exact h
          | some c => exact fsSet_readable op.dst c h

theorem fsGet_mem {fs : FS} {p : Path} {d : FData}
    (h : fsGet fs p = some d) : (p, d) ∈ fs := by
  induction fs with
  | nil => simp [fsGet] at h
  | cons e t ih =>
      by_cases he : e.1 = p
      · rw [show fsGet (e :: t) p = if e.1 = p then some e.2 else fsGet t p
          from rfl, if_pos he] at h
        cases h
        have : e = (p, e.2) := by
          obtain ⟨e1, e2⟩ := e
          rw [show ((e1, e2) : Path × FData).1 = e1 from rfl] at he
          rw [he]
        rw [← this]
        exact List.mem_cons_self _ _
      · rw [show fsGet (e :: t) p = if e.1 = p then some e.2 else fsGet t p
          from rfl, if_neg he] at h
        exact List.mem_cons_of_mem _ (ih h)

/-- On a tree whose files are all readable, a present file's content is
readable. -/
theorem fsGet_readable {fs : FS} {p : Path} {d : FData}
    (hread : ∀ e ∈ fs, (Prod.snd e).isSome = true)
    (h : fsGet fs p = some d) : ∃ c, d = some c := by
  have := hread (p, d) (fsGet_mem h)
  cases d with
  | none => simp at this
  | some c => exact ⟨c, rfl⟩

theorem pending_ne_preview_key (x q : Path) : PENDING ++ x ≠ PREVIEW ++ q := by
  intro h
  rw [PENDING, PREVIEW] at h
  simp at h

theorem not_pending_prefix_preview (x q : Path) :
    ¬ List.IsPrefix (PENDING ++ x) (PREVIEW ++ q) := by
  intro h
  rw [PENDING, PREVIEW, List.cons_append, List.cons_append,
    List.cons_prefix_cons] at h
  exact absurd h.1 (by decide)

theorem atomic_copy_pending (op : FileOp) {q : Path}
    (hdst : op.dst = PREVIEW ++ q) (fs : FS) (x : Path) :
    fsGet (atomic_copy fs op) (PENDING ++ x) = fsGet fs (PENDING ++ x) := by
  rw [atomic_copy]
  cases hsrc : fsGet fs op.src with
  | none => rfl
  | some d =>
      cases d with
      | none => rfl
      | some c =>
          rw [show (match (some (some c) : Option FData) with
            | some (some c) => fsSet fs op.dst c
            | _ => fs) = fsSet fs op.dst c from rfl]
          rw [fsGet_fsSet_other (by rw [hdst]; exact pending_ne_preview_key x q)]

theorem fsGet_apply_pending (ops : List FileOp)
    (hshape : ∀ op ∈ ops, ∃ q, op.dst = PREVIEW ++ q) (fs : FS) (x : Path) :
    fsGet (apply_file_ops ops false fs) (PENDING ++ x) =
      fsGet fs (PENDING ++ x) := by
  induction ops generalizing fs with
  | nil => rfl
  | cons op rest ih =>
      have hstep : apply_file_ops (op :: rest) false fs =
          apply_file_ops rest false (atomic_copy fs op) := rfl
      rw [hstep]
      obtain ⟨q, hq⟩ := hshape op (List.mem_cons_self _ _)
      rw [ih (fun op2 h2 => hshape op2 (List.mem_cons_of_mem _ h2)),
        atomic_copy_pending op hq]

theorem fsGet_apply_untouched (ops : List FileOp) {p : Path}
    (h : ∀ op ∈ ops, op.dst ≠ p) (fs : FS) :
    fsGet (apply_file_ops ops false fs) p = fsGet fs p := by
  induction ops generalizing fs with
  | nil => rfl
  | cons op rest ih =>
      have hstep : apply_file_ops (op :: rest) false fs =
          apply_file_ops rest false (atomic_copy fs op) := rfl
      rw [hstep, ih (fun op2 h2 => h op2 (List.mem_cons_of_mem _ h2))]
      rw [atomic_copy]
      cases hsrc : fsGet fs op.src with
      | none => rfl
      | some d =>
          cases d with
          | none => rfl
          | some c =>
              rw [show (match (some (some c) : Option FData) with
                | some (some c) => fsSet fs op.dst c
                | _ => fs) = fsSet fs op.dst c from rfl]
              rw [fsGet_fsSet_other
                (fun hh => h op (List.mem_cons_self _ _) hh.symm)]

theorem mem_iter_rel_files {fs : FS} {root rel : Path} :
    rel ∈ iter_rel_files fs root ↔
      ((root ++ rel) ∈ fs.map Prod.fst ∧ rel ≠ [] ∧
        relNotIgnored rel = true) := by
  rw [iter_rel_files, mem_sortOn, List.mem_filter, List.mem_filterMap]
  constructor
  · rintro ⟨⟨q, hq, hcond⟩, hign⟩
    by_cases hc : root.isPrefixOf q ∧ q ≠ root
    · rw [if_pos hc] at hcond
      obtain ⟨t, ht⟩ := List.isPrefixOf_iff_prefix.1 hc.1
      subst ht
      rw [List.drop_left] at hcond
      cases hcond
      refine ⟨hq, ?_, hign⟩
      intro hnil
      apply hc.2
      rw [hnil, List.append_nil]
    · rw [if_neg hc] at hcond
      cases hcond
  · rintro ⟨hmem, hnil, hign⟩
    refine ⟨⟨root ++ rel, hmem, ?_⟩, hign⟩
    have hc : root.isPrefixOf (root ++ rel) ∧ root ++ rel ≠ root := by
      constructor
      · exact List.isPrefixOf_iff_prefix.2 (List.prefix_append root rel)
      · intro hh
        apply hnil
        have := congrArg List.length hh
        rw [List.length_append] at this
        cases rel with
        | nil => rfl
        | cons a t => simp at this
    rw [if_pos hc, List.drop_left]

/-- `dirExists` reads only the key list. -/
theorem dirExists_eq_keys (fs : FS) (p : Path) :
    dirExists fs p =
      (fs.map Prod.fst).any fun k => p.isPrefixOf k && !(p == k) := by
  induction fs with
  | nil => rfl
  | cons e t ih =>
      rw [dirExists, List.any_cons, List.map_cons, List.any_cons,
        ← dirExists, ih]

theorem dirExists_apply_pending (ops : List FileOp)
    (hshape : ∀ op ∈ ops, ∃ q, op.dst = PREVIEW ++ q) (fs : FS) (x : Path) :
    dirExists (apply_file_ops ops false fs) (PENDING ++ x) =
      dirExists fs (PENDING ++ x) := by
  obtain ⟨extra, hkeys, hmem⟩ := keys_apply_file_ops ops fs
  rw [dirExists_eq_keys, dirExists_eq_keys, hkeys, List.any_append]
  have hextra : (extra.any fun k =>
      (PENDING ++ x).isPrefixOf k && !((PENDING ++ x) == k)) = false := by
    rw [List.any_eq_false]
    intro k hk
    obtain ⟨op, hop, hkop⟩ := hmem k hk
    obtain ⟨q, hq⟩ := hshape op hop
    rw [hkop, hq]
    have : (PENDING ++ x).isPrefixOf (PREVIEW ++ q) = false := by
      rcases hb : (PENDING ++ x).isPrefixOf (PREVIEW ++ q)
      · rfl
      · exact absurd (List.isPrefixOf_iff_prefix.1 hb)
          (not_pending_prefix_preview x q)
    rw [this]
    simp
  rw [hextra, Bool.or_false]

theorem iter_rel_files_apply_pending (ops : List FileOp)
    (hshape : ∀ op ∈ ops, ∃ q, op.dst = PREVIEW ++ q) (fs : FS) (x : Path) :
    iter_rel_files (apply_file_ops ops false fs) (PENDING ++ x) =
      iter_rel_files fs (PENDING ++ x) := by
  obtain ⟨extra, hkeys, hmem⟩ := keys_apply_file_ops ops fs
  rw [iter_rel_files, iter_rel_files, hkeys, List.filterMap_append]
  have hextra : extra.filterMap (fun q =>
      if (PENDING ++ x).isPrefixOf q ∧ q ≠ PENDING ++ x then
        some (q.drop (PENDING ++ x).length) else none) = [] := by
    rw [List.filterMap_eq_nil_iff]
    intro k hk
    obtain ⟨op, hop, hkop⟩ := hmem k hk
    obtain ⟨q, hq⟩ := hshape op hop
    rw [hkop, hq, if_neg]
    rintro ⟨h1, _⟩
    exact not_pending_prefix_preview x q (List.isPrefixOf_iff_prefix.1 h1)
  rw [hextra, List.append_nil]

/-! ## Structure of the sync plan -/

/-- The operation a directory-entry walk emits for one relative file. -/
def dirFileOp (force : Bool) (fs : FS) (sd dv rel : Path) :
    Option FileOp :=
  (planFile force fs (sd ++ rel) (dv ++ rel)).map fun k =>
    ⟨sd ++ rel, dv ++ rel, k⟩

theorem entry_ops_dir_fold (force : Bool) (fs : FS) (sd dv : Path)
    (rels : List Path) (acc : List FileOp × Bool) :
    (rels.foldl (fun acc rel =>
      match planFile force fs (sd ++ rel) (dv ++ rel) with
      | some k => (acc.1 ++ [⟨sd ++ rel, dv ++ rel, k⟩], true)
      | none => acc) acc).1 =
    acc.1 ++ rels.filterMap (dirFileOp force fs sd dv) := by
  induction rels generalizing acc with
  | nil => simp
  | cons r rs ih =>
      rw [List.foldl_cons, List.filterMap_cons]
      cases hpf : planFile force fs (sd ++ r) (dv ++ r) with
      | none =>
          rw [show dirFileOp force fs sd dv r = none from by
            rw [dirFileOp, hpf]; rfl]
          exact ih acc
      | some k =>
          rw [show dirFileOp force fs sd dv r =
            some ⟨sd ++ r, dv ++ r, k⟩ from by rw [dirFileOp, hpf]; rfl]
          rw [ih, List.append_assoc]
          rfl

theorem entry_ops_dir (force : Bool) (fs : FS) (e : Entry)
    (hd : e.is_dir = true)
    (hex : dirExists fs (PENDING ++ e.rel) = true) :
    (entry_ops force fs e).1 =
      (iter_rel_files fs (PENDING ++ e.rel)).filterMap
        (dirFileOp force fs (PENDING ++ e.rel) (PREVIEW ++ e.rel)) := by
  rw [entry_ops, if_pos (by rw [hd])]
  rw [if_neg (by rw [hex]; exact fun hc => by cases hc)]
  exact (entry_ops_dir_fold force fs (PENDING ++ e.rel) (PREVIEW ++ e.rel)
    (iter_rel_files fs (PENDING ++ e.rel)) ([], false)).trans
    (List.nil_append _)

theorem entry_ops_dir_missing (force : Bool) (fs : FS) (e : Entry)
    (hd : e.is_dir = true)
    (hex : dirExists fs (PENDING ++ e.rel) = false) :
    entry_ops force fs e = ([], false) := by
  rw [entry_ops, if_pos (by rw [hd])]
  rw [if_pos (by rw [hex]; rfl)]

theorem entry_ops_file_missing (force : Bool) (fs : FS) (e : Entry)
    (hd : e.is_dir = false)
    (hex : fsExists fs (PENDING ++ e.rel) = false) :
    entry_ops force fs e = ([], false) := by
  rw [entry_ops, if_neg (by rw [hd]; exact fun hc => by cases hc)]
  rw [if_pos (by rw [hex]; rfl)]

theorem entry_ops_file (force : Bool) (fs : FS) (e : Entry)
    (hd : e.is_dir = false)
    (hex : fsExists fs (PENDING ++ e.rel) = true) :
    (entry_ops force fs e).1 =
      (planFile force fs (PENDING ++ e.rel) (PREVIEW ++ e.rel)).elim []
        (fun k => [⟨PENDING ++ e.rel, PREVIEW ++ e.rel, k⟩]) := by
  rw [entry_ops, if_neg (by rw [hd]; exact fun hc => by cases hc)]
  rw [if_neg (by rw [hex]; exact fun hc => by cases hc)]
  cases hpf : planFile force fs (PENDING ++ e.rel) (PREVIEW ++ e.rel) <;> rfl

theorem build_sync_plan_ops (entries : List Entry) (force : Bool)
    (fs : FS) :
    (build_sync_plan entries force fs).1 =
      entries.flatMap fun e => (entry_ops force fs e).1 := by
  have haux : ∀ (es : List Entry) (acc : List FileOp × List (String × Bool)),
      (es.foldl (fun acc e =>
        let r := entry_ops force fs e
        (acc.1 ++ r.1, upsertFlag acc.2 e.raw r.2)) acc).1 =
      acc.1 ++ es.flatMap fun e => (entry_ops force fs e).1 := by
    intro es
    induction es with
    | nil => intro acc; simp
    | cons e t ih =>
        intro acc
        rw [List.foldl_cons, ih, List.flatMap_cons, ← List.append_assoc]
  exact (haux entries ([], [])).trans (List.nil_append _)

/-- Every operation of a sync plan copies a pending path onto the
preview path with the same relative suffix. -/
theorem plan_op_shape {entries : List Entry} {force : Bool} {fs : FS}
    {op : FileOp} (h : op ∈ (build_sync_plan entries force fs).1) :
    ∃ q, op.src = PENDING ++ q ∧ op.dst = PREVIEW ++ q := by
  rw [build_sync_plan_ops] at h
  obtain ⟨e, _, hop⟩ := List.mem_flatMap.1 h
  rcases hd : e.is_dir with hfalse | htrue
  · rcases hex : fsExists fs (PENDING ++ e.rel) with hf | ht
    · rw [entry_ops_file_missing force fs e hd hex] at hop
      simp at hop
    · rw [entry_ops_file force fs e hd hex] at hop
      cases hpf : planFile force fs (PENDING ++ e.rel) (PREVIEW ++ e.rel) with
      | none => rw [hpf] at hop; simp [Option.elim] at hop
      | some k =>
          rw [hpf] at hop
          simp only [Option.elim, List.mem_singleton] at hop
          exact ⟨e.rel, by rw [hop], by rw [hop]⟩
  · rcases hex : dirExists fs (PENDING ++ e.rel) with hf | ht
    · rw [entry_ops_dir_missing force fs e hd hex] at hop
      simp at hop
    · rw [entry_ops_dir force fs e hd hex] at hop
      obtain ⟨rel, _, hrel⟩ := List.mem_filterMap.1 hop
      rw [dirFileOp] at hrel
      cases hpf : planFile force fs (PENDING ++ e.rel ++ rel)
        (PREVIEW ++ e.rel ++ rel) with
      | none => rw [hpf] at hrel; cases hrel
      | some k =>
          rw [hpf, Option.map_some'] at hrel
          cases hrel
          refine ⟨e.rel ++ rel, ?_, ?_⟩
          · show PENDING ++ e.rel ++ rel = PENDING ++ (e.rel ++ rel)
            rw [List.append_assoc]
          · show PREVIEW ++ e.rel ++ rel = PREVIEW ++ (e.rel ++ rel)
            rw [List.append_assoc]

/-- Every operation of a sync plan has a readable source (on an
all-readable tree). -/
theorem plan_op_src_readable {entries : List Entry} {force : Bool}
    {fs : FS} (hread : ∀ e ∈ fs, (Prod.snd e).isSome = true) {op : FileOp}
    (h : op ∈ (build_sync_plan entries force fs).1) :
    ∃ c, fsGet fs op.src = some (some c) := by
  rw [build_sync_plan_ops] at h
  obtain ⟨e, _, hop⟩ := List.mem_flatMap.1 h
  rcases hd : e.is_dir with hfalse | htrue
  · rcases hex : fsExists fs (PENDING ++ e.rel) with hf | ht
    · rw [entry_ops_file_missing force fs e hd hex] at hop
      simp at hop
    · rw [entry_ops_file force fs e hd hex] at hop
      cases hpf : planFile force fs (PENDING ++ e.rel) (PREVIEW ++ e.rel) with
      | none => rw [hpf] at hop; simp [Option.elim] at hop
      | some k =>
          rw [hpf] at hop
          simp only [Option.elim, List.mem_singleton] at hop
          rw [hop]
          rw [fsExists] at hex
          cases hg : fsGet fs (PENDING ++ e.rel) with
          | none => rw [hg] at hex; cases hex
          | some d =>
              obtain ⟨c, hc⟩ := fsGet_readable hread hg
              exact ⟨c, by rw [hc]⟩
  · rcases hex : dirExists fs (PENDING ++ e.rel) with hf | ht
    · rw [entry_ops_dir_missing force fs e hd hex] at hop
      simp at hop
    · rw [entry_ops_dir force fs e hd hex] at hop
      obtain ⟨rel, hrelmem, hrel⟩ := List.mem_filterMap.1 hop
      rw [dirFileOp] at hrel
      cases hpf : planFile force fs (PENDING ++ e.rel ++ rel)
        (PREVIEW ++ e.rel ++ rel) with
      | none => rw [hpf] at hrel; cases hrel
      | some k =>
          rw [hpf, Option.map_some'] at hrel
          cases hrel
          have hkey := (mem_iter_rel_files.1 hrelmem).1
          have hsome := fsGet_isSome_of_key_mem hkey
          cases hg : fsGet fs (PENDING ++ e.rel ++ rel) with
          | none =>
              rw [hg] at hsome
              cases hsome
          | some d =>
              obtain ⟨c, hc⟩ := fsGet_readable hread hg
              exact ⟨c, by rw [hc]⟩

/-- The preview content after applying a plan: on operation targets it is
the pending content; elsewhere it is unchanged. -/
theorem fsGet_apply_dst (ops : List FileOp) (fs : FS)
    (hshape : ∀ op ∈ ops, ∃ q, op.src = PENDING ++ q ∧
      op.dst = PREVIEW ++ q)
    (hsrcs : ∀ op ∈ ops, ∃ c, fsGet fs op.src = some (some c)) (q : Path)
    (hq : ∃ op ∈ ops, op.dst = PREVIEW ++ q) :
    fsGet (apply_file_ops ops false fs) (PREVIEW ++ q) =
      fsGet fs (PENDING ++ q) := by
  induction ops generalizing fs with
  | nil => obtain ⟨op, hop, _⟩ := hq; simp at hop
  | cons op rest ih =>
      have hstep : apply_file_ops (op :: rest) false fs =
          apply_file_ops rest false (atomic_copy fs op) := rfl
      obtain ⟨c0, hc0⟩ := hsrcs op (List.mem_cons_self _ _)
      have hac : atomic_copy fs op = fsSet fs op.dst c0 := by
        rw [atomic_copy, hc0]
      obtain ⟨q0, hq0src, hq0dst⟩ := hshape op (List.mem_cons_self _ _)
      have hpend : ∀ x, fsGet (fsSet fs op.dst c0) (PENDING ++ x) =
          fsGet fs (PENDING ++ x) := fun x =>
        fsGet_fsSet_other (by rw [hq0dst]; exact pending_ne_preview_key x q0)
          fs c0
      have hshape' : ∀ op2 ∈ rest, ∃ q2, op2.src = PENDING ++ q2 ∧
          op2.dst = PREVIEW ++ q2 := fun op2 h2 =>
        hshape op2 (List.mem_cons_of_mem _ h2)
      have hsrcs' : ∀ op2 ∈ rest, ∃ c, fsGet (fsSet fs op.dst c0) op2.src =
          some (some c) := by
        intro op2 h2
        obtain ⟨q2, hq2src, _⟩ := hshape' op2 h2
        obtain ⟨c2, hc2⟩ := hsrcs op2 (List.mem_cons_of_mem _ h2)
        rw [hq2src, hpend q2]
        rw [hq2src] at hc2
        exact ⟨c2, hc2⟩
      rw [hstep, hac]
      by_cases hrest : ∃ op2 ∈ rest, op2.dst = PREVIEW ++ q
      · rw [ih (fsSet fs op.dst c0) hshape' hsrcs' hrest, hpend q]
      · have hopq : op.dst = PREVIEW ++ q := by
          obtain ⟨op2, hop2, hd2⟩ := hq
          rcases List.mem_cons.1 hop2 with h1 | h1
          · rw [← h1]; exact hd2
          · exact absurd ⟨op2, h1, hd2⟩ hrest
        have huntouched : ∀ op2 ∈ rest, op2.dst ≠ PREVIEW ++ q := by
          intro op2 h2 hd2
          exact hrest ⟨op2, h2, hd2⟩
        rw [fsGet_apply_untouched rest huntouched]
        have hqq0 : q0 = q := by
          rw [hopq] at hq0dst
          exact (List.append_cancel_left hq0dst.symm)
        rw [← hopq, fsGet_fsSet_self]
        rw [hq0src, hqq0] at hc0
        rw [hc0]

/-- Content equality is reflexive. -/
theorem content_equal_refl (pa pb : Path) (c : Content) :
    content_equal pa pb c c = true := by
  rw [content_equal]
  by_cases h : isNotebookPath pa && isNotebookPath pb
  · rw [if_pos h, notebook_files_equal]
    cases hn : normalized_notebook_text c with
    | none => simp [files_equal]
    | some t => simp
  · rw [if_neg h]
    simp [files_equal]

/-- After a plan's operations are applied, no candidate file needs an
operation any more. -/
theorem planFile_fixed (entries : List Entry) (fs : FS)
    (hread : ∀ e ∈ fs, (Prod.snd e).isSome = true) (q : Path)
    (hsrc : ∃ c, fsGet fs (PENDING ++ q) = some (some c))
    (hcase : planFile false fs (PENDING ++ q) (PREVIEW ++ q) = none ∨
      ∃ op ∈ (build_sync_plan entries false fs).1, op.dst = PREVIEW ++ q) :
    planFile false
      (apply_file_ops (build_sync_plan entries false fs).1 false fs)
      (PENDING ++ q) (PREVIEW ++ q) = none := by
  have hshape : ∀ op ∈ (build_sync_plan entries false fs).1,
      ∃ q', op.src = PENDING ++ q' ∧ op.dst = PREVIEW ++ q' :=
    fun op h => plan_op_shape h
  have hshaped : ∀ op ∈ (build_sync_plan entries false fs).1,
      ∃ q', op.dst = PREVIEW ++ q' :=
    fun op h => (hshape op h).imp fun _ hh => hh.2
  have hsrcs : ∀ op ∈ (build_sync_plan entries false fs).1,
      ∃ c, fsGet fs op.src = some (some c) :=
    fun op h => plan_op_src_readable hread h
  obtain ⟨c, hc⟩ := hsrc
  have hpendq : fsGet
      (apply_file_ops (build_sync_plan entries false fs).1 false fs)
      (PENDING ++ q) = some (some c) := by
    rw [fsGet_apply_pending _ hshaped fs q, hc]
  by_cases hdst : ∃ op ∈ (build_sync_plan entries false fs).1,
      op.dst = PREVIEW ++ q
  · have hdget := fsGet_apply_dst _ fs hshape hsrcs q hdst
    rw [hc] at hdget
    rw [planFile, hdget, hpendq]
    show (if false || !(content_equal (PENDING ++ q) (PREVIEW ++ q) c c)
      then some "update" else none) = none
    rw [content_equal_refl]
    rfl
  · rcases hcase with hnone | hdst2
    · have hu : fsGet
          (apply_file_ops (build_sync_plan entries false fs).1 false fs)
          (PREVIEW ++ q) = fsGet fs (PREVIEW ++ q) :=
        fsGet_apply_untouched _ (fun op h hd => hdst ⟨op, h, hd⟩) fs
      rw [planFile, hu, hpendq]
      rw [planFile, hc] at hnone
      exact hnone
    · exact absurd hdst2 hdst

/-- C1: Sync planning is a fixed point under application: for every
manifest entry list and every pair of pending/preview trees (with every
file readable, i.e. the exception-free runs the claim speaks about),
building the plan with `force_full_resync = false`, applying every
returned file operation, and planning again yields an empty operation
list. -/
theorem c1_sync_plan_fixed_point (entries : List Entry) (fs : FS)
    (hread : ∀ e ∈ fs, (Prod.snd e).isSome = true) :
    (build_sync_plan entries false
      (apply_file_ops (build_sync_plan entries false fs).1 false fs)).1 =
      [] := by
  have hshaped : ∀ op ∈ (build_sync_plan entries false fs).1,
      ∃ q', op.dst = PREVIEW ++ q' :=
    fun op h => (plan_op_shape h).imp fun _ hh => hh.2
  rw [build_sync_plan_ops]
  rw [List.flatMap_eq_nil_iff]
  intro e he
  rcases hd : e.is_dir with hf | ht
  · rcases hex : fsExists (apply_file_ops (build_sync_plan entries false
        fs).1 false fs) (PENDING ++ e.rel) with h0 | h1
    · rw [entry_ops_file_missing false _ e hd hex]
    · rw [entry_ops_file false _ e hd hex]
      have hexfs : fsExists fs (PENDING ++ e.rel) = true := by
        rw [fsExists] at hex ⊢
        rw [fsGet_apply_pending _ hshaped fs e.rel] at hex
        exact hex
      have hsrc : ∃ c, fsGet fs (PENDING ++ e.rel) = some (some c) := by
        rw [fsExists] at hexfs
        cases hg : fsGet fs (PENDING ++ e.rel) with
        | none => rw [hg] at hexfs; cases hexfs
        | some d =>
            obtain ⟨c, hcd⟩ := fsGet_readable hread hg
            exact ⟨c, by rw [hcd]⟩
      have hcase : planFile false fs (PENDING ++ e.rel)
          (PREVIEW ++ e.rel) = none ∨
          ∃ op ∈ (build_sync_plan entries false fs).1,
            op.dst = PREVIEW ++ e.rel := by
        cases hpf : planFile false fs (PENDING ++ e.rel)
            (PREVIEW ++ e.rel) with
        | none => exact Or.inl rfl
        | some k =>
            right
            refine ⟨⟨PENDING ++ e.rel, PREVIEW ++ e.rel, k⟩, ?_, rfl⟩
            rw [build_sync_plan_ops]
            apply List.mem_flatMap.2
            refine ⟨e, he, ?_⟩
            rw [entry_ops_file false fs e hd hexfs, hpf]
            exact List.mem_singleton.2 rfl
      rw [planFile_fixed entries fs hread e.rel hsrc hcase]
      rfl
  · rcases hex : dirExists (apply_file_ops (build_sync_plan entries false
        fs).1 false fs) (PENDING ++ e.rel) with h0 | h1
    · rw [entry_ops_dir_missing false _ e hd hex]
    · rw [entry_ops_dir false _ e hd hex]
      have hiter := iter_rel_files_apply_pending _ hshaped fs e.rel
      rw [hiter, List.filterMap_eq_nil_iff]
      intro rel hrel
      rw [dirFileOp]
      have hdirfs : dirExists fs (PENDING ++ e.rel) = true := by
        rw [dirExists_apply_pending _ hshaped fs e.rel] at hex
        exact hex
      have hkey := (mem_iter_rel_files.1 hrel).1
      have hsome := fsGet_isSome_of_key_mem hkey
      have hsrc : ∃ c, fsGet fs (PENDING ++ (e.rel ++ rel)) =
          some (some c) := by
        rw [← List.append_assoc]
        cases hg : fsGet fs (PENDING ++ e.rel ++ rel) with
        | none => rw [hg] at hsome; cases hsome
        | some d =>
            obtain ⟨c, hcd⟩ := fsGet_readable hread hg
            exact ⟨c, by rw [hcd]⟩
      have hcase : planFile false fs (PENDING ++ (e.rel ++ rel))
          (PREVIEW ++ (e.rel ++ rel)) = none ∨
          ∃ op ∈ (build_sync_plan entries false fs).1,
            op.dst = PREVIEW ++ (e.rel ++ rel) := by
        cases hpf : planFile false fs (PENDING ++ e.rel ++ rel)
            (PREVIEW ++ e.rel ++ rel) with
        | none =>
            left
            rw [← List.append_assoc, ← List.append_assoc]
            exact hpf
        | some k =>
            right
            refine ⟨⟨PENDING ++ e.rel ++ rel, PREVIEW ++ e.rel ++ rel, k⟩,
              ?_, ?_⟩
            · rw [build_sync_plan_ops]
              apply List.mem_flatMap.2
              refine ⟨e, he, ?_⟩
              rw [entry_ops_dir false fs e hd hdirfs]
              apply List.mem_filterMap.2
              refine ⟨rel, hrel, ?_⟩
              rw [dirFileOp, hpf]
              rfl
            · show PREVIEW ++ e.rel ++ rel = PREVIEW ++ (e.rel ++ rel)
              rw [List.append_assoc]
      have hfx := planFile_fixed entries fs hread (e.rel ++ rel) hsrc hcase
      rw [← List.append_assoc, ← List.append_assoc] at hfx
      rw [hfx]
      rfl

/-- Witness for C1 at a concrete manifest and tree. -/
theorem c1_sync_plan_fixed_point_witness :
    (∀ e ∈ ([(["pending", "notes.txt"], some (Content.bytes "a")),
        (["preview", "old.txt"], some (Content.bytes "b"))] : FS),
      (Prod.snd e).isSome = true) ∧
    (build_sync_plan [⟨"notes.txt", ["notes.txt"], false⟩] false
      (apply_file_ops
        (build_sync_plan [⟨"notes.txt", ["notes.txt"], false⟩] false
          [(["pending", "notes.txt"], some (Content.bytes "a")),
           (["preview", "old.txt"], some (Content.bytes "b"))]).1 false
        [(["pending", "notes.txt"], some (Content.bytes "a")),
         (["preview", "old.txt"], some (Content.bytes "b"))])).1 = [] :=
  ⟨by decide, c1_sync_plan_fixed_point
    [⟨"notes.txt", ["notes.txt"], false⟩]
    [(["pending", "notes.txt"], some (Content.bytes "a")),
     (["preview", "old.txt"], some (Content.bytes "b"))] (by decide)⟩

/-- C2: Lock acquisition is mutually exclusive with TTL-based stale
takeover: against a valid lock file whose owner is alive or whose age is
at most the 30-second TTL, acquisition fails with the distinct Busy
outcome and the lock is untouched; against a valid lock whose owner is
dead and older than the TTL, the stale lock is replaced and acquisition
succeeds — unless the exclusive-create race is lost, which is again
Busy. -/
theorem c2_lock_mutual_exclusion (alive : Int → Bool)
    (opid t now pid : Int) (raceLoses : Bool) :
    (is_pid_alive alive opid = true ∨ now - t ≤ LOCK_TTL_SECS →
      acquire_single_writer_lock (.valid opid t) alive now pid
        LOCK_TTL_SECS raceLoses = ((false, "busy"), .valid opid t)) ∧
    (is_pid_alive alive opid = false → now - t > LOCK_TTL_SECS →
      (raceLoses = false →
        acquire_single_writer_lock (.valid opid t) alive now pid
          LOCK_TTL_SECS raceLoses = ((true, "ok"), .valid pid now)) ∧
      (raceLoses = true →
        (acquire_single_writer_lock (.valid opid t) alive now pid
          LOCK_TTL_SECS raceLoses).1 = (false, "busy"))) := by
  constructor
  · intro h
    rcases h with h | h
    · simp [acquire_single_writer_lock, h]
    · have hng : ¬(now - t > LOCK_TTL_SECS) := not_lt.mpr h
      simp [acquire_single_writer_lock, hng]
  · intro hdead hstale
    constructor <;> intro hr <;>
      simp [acquire_single_writer_lock, hdead, hstale, hr]

/-- Witness for C2: a live fresh lock is busy; a dead stale one is taken
over. -/
theorem c2_lock_mutual_exclusion_witness :
    acquire_single_writer_lock (.valid 7 90) (fun _ => true) 100 2
      LOCK_TTL_SECS false = ((false, "busy"), .valid 7 90) ∧
    acquire_single_writer_lock (.valid 7 0) (fun _ => false) 100 2
      LOCK_TTL_SECS false = ((true, "ok"), .valid 2 100) :=
  ⟨(c2_lock_mutual_exclusion (fun _ => true) 7 90 100 2 false).1
      (Or.inl (by decide)),
   ((c2_lock_mutual_exclusion (fun _ => false) 7 0 100 2 false).2
      (by decide) (by decide)).1 rfl⟩

/-- C10: the recovery-marker check decides without reading stdin only for
an absent marker (no forced resync) or a stale marker under
auto-confirmation (forced resync); in every other case where a marker
exists it reads a line, aborting on EOF and answering no on any
non-affirmative response. -/
theorem c10_marker_check_prompts (m : MarkerFile) (ay : Bool) (now : Int) :
    (m = .absent → ∀ stdin,
      check_marker_and_maybe_force_full_resync m ay now stdin =
        .ok false) ∧
    (m ≠ .absent → ay = true → markerAge m now > LOCK_TTL_SECS →
      ∀ stdin, check_marker_and_maybe_force_full_resync m ay now stdin =
        .ok true) ∧
    (m ≠ .absent → ¬(ay = true ∧ markerAge m now > LOCK_TTL_SECS) →
      check_marker_and_maybe_force_full_resync m ay now none =
        .error () ∧
      ∀ s, check_marker_and_maybe_force_full_resync m ay now (some s) =
        .ok (isYes s)) := by
  refine ⟨?_, ?_, ?_⟩
  · rintro rfl stdin
    rfl
  · intro hne hay hstale stdin
    cases m with
    | absent => exact absurd rfl hne
    | corrupt =>
        simp only [check_marker_and_maybe_force_full_resync]
        rw [if_pos (by rw [hay]; simpa using hstale)]
    | valid p t =>
        simp only [check_marker_and_maybe_force_full_resync]
        rw [if_pos (by rw [hay]; simpa using hstale)]
  · intro hne hnot
    have hcond : (ay && decide (markerAge m now > LOCK_TTL_SECS)) = false := by
      rcases hay : ay
      · rfl
      · rcases hst : decide (markerAge m now > LOCK_TTL_SECS)
        · rfl
        · exact absurd ⟨rfl, of_decide_eq_true hst⟩ (hay ▸ hnot)
    cases m with
    | absent => exact absurd rfl hne
    | corrupt =>
        constructor
        · simp only [check_marker_and_maybe_force_full_resync]
          rw [if_neg (by rw [hcond]; simp)]
        · intro s
          simp only [check_marker_and_maybe_force_full_resync]
          rw [if_neg (by rw [hcond]; simp)]
    | valid p t =>
        constructor
        · simp only [check_marker_and_maybe_force_full_resync]
          rw [if_neg (by rw [hcond]; simp)]
        · intro s
          simp only [check_marker_and_maybe_force_full_resync]
          rw [if_neg (by rw [hcond]; simp)]

/-- C3: the orphan set never contains a tracked file's exact path nor any
path under a tracked directory entry (prefix containment, regardless of
content); every orphan is a file listed under the preview tree; the
orphan list is sorted by path. -/
theorem c3_orphan_exclusion (entries : List Entry) (fs : FS) :
    (∀ p ∈ list_orphans entries fs, ∀ e ∈ entries,
      (e.is_dir = false → p ≠ e.rel) ∧
      (e.is_dir = true → e.rel.isPrefixOf p = false)) ∧
    (∀ p ∈ list_orphans entries fs, p ∈ iter_rel_files fs PREVIEW) ∧
    (list_orphans entries fs).Sorted (keyLe posix) := by
  refine ⟨?_, ?_, sortOn_sorted _ _⟩
  · intro p hp e he
    rw [list_orphans, mem_sortOn, List.mem_filter] at hp
    obtain ⟨hmem, hpred⟩ := hp
    rw [Bool.and_eq_true] at hpred
    obtain ⟨hfile, hdir⟩ := hpred
    constructor
    · intro hef heq
      rw [Bool.not_eq_true'] at hfile
      have hmemf : posix p ∈ (entries.filter fun e => !e.is_dir).map
          (fun e => posix e.rel) := by
        apply List.mem_map.2
        refine ⟨e, List.mem_filter.2 ⟨he, by rw [hef]; rfl⟩, ?_⟩
        rw [heq]
      have h2 : ((entries.filter fun e => !e.is_dir).map
          (fun e => posix e.rel)).elem (posix p) = false := hfile
      rw [List.elem_eq_true_of_mem hmemf] at h2
      cases h2
    · intro het
      rcases hb : e.rel.isPrefixOf p
      · rfl
      · exfalso
        rw [Bool.not_eq_true', List.any_eq_false] at hdir
        have := hdir e.rel (List.mem_map.2
          ⟨e, List.mem_filter.2 ⟨he, by rw [het]⟩, rfl⟩)
        exact this hb
  · intro p hp
    rw [list_orphans, mem_sortOn, List.mem_filter] at hp
    exact hp.1

/-- Witness for C3 at a concrete preview tree with a tracked file, a
tracked folder, and one genuine orphan. -/
theorem c3_orphan_exclusion_witness :
    (∀ p ∈ list_orphans
        [⟨"a.txt", ["a.txt"], false⟩, ⟨"d/", ["d"], true⟩]
        [(["preview", "a.txt"], some (Content.bytes "x")),
         (["preview", "d", "in.txt"], some (Content.bytes "y")),
         (["preview", "stray.txt"], some (Content.bytes "z"))],
      ∀ e ∈ [(⟨"a.txt", ["a.txt"], false⟩ : Entry), ⟨"d/", ["d"], true⟩],
        (e.is_dir = false → p ≠ e.rel) ∧
        (e.is_dir = true → e.rel.isPrefixOf p = false)) ∧
    list_orphans [⟨"a.txt", ["a.txt"], false⟩, ⟨"d/", ["d"], true⟩]
      [(["preview", "a.txt"], some (Content.bytes "x")),
       (["preview", "d", "in.txt"], some (Content.bytes "y")),
       (["preview", "stray.txt"], some (Content.bytes "z"))] =
      [["stray.txt"]] :=
  ⟨(c3_orphan_exclusion _ _).1, by decide⟩

theorem upsertFlag_fresh {m : List (String × Bool)} {k : String}
    (h : ∀ q ∈ m, q.1 ≠ k) (b : Bool) :
    upsertFlag m k b = m ++ [(k, b)] := by
  rw [upsertFlag, if_neg]
  intro hany
  simp only [List.any_eq_true, decide_eq_true_eq] at hany
  obtain ⟨q, hq, hqk⟩ := hany
  exact h q hq hqk

theorem build_sync_plan_flags (entries : List Entry) (force : Bool)
    (fs : FS) (hnd : (entries.map Entry.raw).Nodup) :
    (build_sync_plan entries force fs).2 =
      entries.map fun e => (e.raw, (entry_ops force fs e).2) := by
  have haux : ∀ (es : List Entry) (acc : List FileOp × List (String × Bool)),
      (∀ e ∈ es, ∀ q ∈ acc.2, q.1 ≠ e.raw) → (es.map Entry.raw).Nodup →
      (es.foldl (fun acc e =>
        let r := entry_ops force fs e
        (acc.1 ++ r.1, upsertFlag acc.2 e.raw r.2)) acc).2 =
      acc.2 ++ es.map (fun e => (e.raw, (entry_ops force fs e).2)) := by
    intro es
    induction es with
    | nil => intro acc _ _; simp
    | cons e t ih =>
        intro acc hfresh hnd
        rw [List.map_cons, List.nodup_cons] at hnd
        rw [List.foldl_cons]
        have hup : upsertFlag acc.2 e.raw (entry_ops force fs e).2 =
            acc.2 ++ [(e.raw, (entry_ops force fs e).2)] :=
          upsertFlag_fresh (fun q hq =>
            hfresh e (List.mem_cons_self _ _) q hq) _
        have hfresh2 : ∀ e2 ∈ t,
            ∀ q ∈ (acc.2 ++ [(e.raw, (entry_ops force fs e).2)]), q.1 ≠
              e2.raw := by
          intro e2 he2 q hq
          rcases List.mem_append.1 hq with h1 | h1
          · exact hfresh e2 (List.mem_cons_of_mem _ he2) q h1
          · simp only [List.mem_singleton] at h1
            rw [h1]
            intro hh
            apply hnd.1
            rw [show ((e.raw, (entry_ops force fs e).2) :
              String × Bool).1 = e.raw from rfl] at hh
            rw [hh]
            exact List.mem_map.2 ⟨e2, he2, rfl⟩
        have := ih (acc.1 ++ (entry_ops force fs e).1,
          acc.2 ++ [(e.raw, (entry_ops force fs e).2)])
          (by
            intro e2 he2 q hq
            exact hfresh2 e2 he2 q hq) hnd.2
        calc (t.foldl (fun acc e =>
              let r := entry_ops force fs e
              (acc.1 ++ r.1, upsertFlag acc.2 e.raw r.2))
              (acc.1 ++ (entry_ops force fs e).1,
                upsertFlag acc.2 e.raw (entry_ops force fs e).2)).2
            = (t.foldl (fun acc e =>
              let r := entry_ops force fs e
              (acc.1 ++ r.1, upsertFlag acc.2 e.raw r.2))
              (acc.1 ++ (entry_ops force fs e).1,
                acc.2 ++ [(e.raw, (entry_ops force fs e).2)])).2 := by
              rw [hup]
          _ = (acc.2 ++ [(e.raw, (entry_ops force fs e).2)]) ++
              t.map (fun e => (e.raw, (entry_ops force fs e).2)) := this
          _ = acc.2 ++ (e :: t).map
              (fun e => (e.raw, (entry_ops force fs e).2)) := by
              rw [List.map_cons, List.append_assoc]
              rfl
  exact (haux entries ([], []) (by simp) hnd).trans (List.nil_append _)

theorem lookup_map_raw {entries : List Entry} {e : Entry}
    (hmem : e ∈ entries) (hnd : (entries.map Entry.raw).Nodup)
    (f : Entry → Bool) :
    (entries.map fun x => (x.raw, f x)).lookup e.raw = some (f e) := by
  induction entries with
  | nil => cases hmem
  | cons a t ih =>
      rw [List.map_cons, List.nodup_cons] at hnd
      rcases List.mem_cons.1 hmem with h1 | h1
      · subst h1
        rw [List.map_cons, List.lookup_cons]
        simp
      · have hne : (e.raw == a.raw) = false := by
          rw [beq_eq_false_iff_ne]
          intro hh
          exact hnd.1 (hh ▸ List.mem_map.2 ⟨e, h1, rfl⟩)
        rw [List.map_cons, List.lookup_cons, hne]
        exact ih h1 hnd.2

/-- C7: a manifest entry whose source path is missing from the pending
tree contributes zero file operations to the plan (whose operation list
is exactly the per-entry concatenation) and is recorded as not updated
in the per-entry map, with no error raised (the planner is total). -/
theorem c7_missing_source_unchanged (entries : List Entry) (force : Bool)
    (fs : FS) (e : Entry) (hmem : e ∈ entries)
    (hnd : (entries.map Entry.raw).Nodup)
    (hmissd : e.is_dir = true → dirExists fs (PENDING ++ e.rel) = false)
    (hmissf : e.is_dir = false → fsExists fs (PENDING ++ e.rel) = false) :
    entry_ops force fs e = ([], false) ∧
    (build_sync_plan entries force fs).1 =
      entries.flatMap (fun x => (entry_ops force fs x).1) ∧
    (build_sync_plan entries force fs).2.lookup e.raw = some false := by
  have hops : entry_ops force fs e = ([], false) := by
    rcases hd : e.is_dir
    · exact entry_ops_file_missing force fs e hd (hmissf hd)
    · exact entry_ops_dir_missing force fs e hd (hmissd hd)
  refine ⟨hops, build_sync_plan_ops entries force fs, ?_⟩
  rw [build_sync_plan_flags entries force fs hnd,
    lookup_map_raw hmem hnd (fun x => (entry_ops force fs x).2), hops]

/-- Witness for C7: a manifest with one present and one missing entry. -/
theorem c7_missing_source_unchanged_witness :
    entry_ops false [(["pending", "here.txt"], some (Content.bytes "x"))]
      ⟨"gone.txt", ["gone.txt"], false⟩ = ([], false) ∧
    (build_sync_plan
      [⟨"here.txt", ["here.txt"], false⟩, ⟨"gone.txt", ["gone.txt"], false⟩]
      false [(["pending", "here.txt"], some (Content.bytes "x"))]).1 =
      [⟨"here.txt", ["here.txt"], false⟩,
        ⟨"gone.txt", ["gone.txt"], false⟩].flatMap
        (fun x => (entry_ops false
          [(["pending", "here.txt"], some (Content.bytes "x"))] x).1) ∧
    (build_sync_plan
      [⟨"here.txt", ["here.txt"], false⟩, ⟨"gone.txt", ["gone.txt"], false⟩]
      false [(["pending", "here.txt"],
        some (Content.bytes "x"))]).2.lookup "gone.txt" = some false :=
  c7_missing_source_unchanged
    [⟨"here.txt", ["here.txt"], false⟩, ⟨"gone.txt", ["gone.txt"], false⟩]
    false [(["pending", "here.txt"], some (Content.bytes "x"))]
    ⟨"gone.txt", ["gone.txt"], false⟩ (by decide) (by decide)
    (by intro h; cases h) (fun _ => by decide)

theorem mem_dedupByPosix {l : List Path} {q : Path}
    (h : q ∈ dedupByPosix l) : q ∈ l := by
  induction l with
  | nil => simp [dedupByPosix] at h
  | cons p t ih =>
      rw [dedupByPosix] at h
      by_cases hc : t.any (fun r => posix r == posix p)
      · rw [if_pos hc] at h
        exact List.mem_cons_of_mem _ (ih h)
      · rw [if_neg hc] at h
        rcases List.mem_cons.1 h with h1 | h1
        · rw [h1]
          exact List.mem_cons_self _ _
        · exact List.mem_cons_of_mem _ (ih h1)

theorem posix_mem_dedupByPosix {l : List Path} {t : String} :
    (∃ q ∈ dedupByPosix l, posix q = t) ↔ ∃ q ∈ l, posix q = t := by
  induction l with
  | nil => simp [dedupByPosix]
  | cons p tl ih =>
      rw [dedupByPosix]
      by_cases hc : tl.any (fun r => posix r == posix p)
      · rw [if_pos hc]
        rw [ih]
        constructor
        · rintro ⟨q, hq, rfl⟩
          exact ⟨q, List.mem_cons_of_mem _ hq, rfl⟩
        · rintro ⟨q, hq, rfl⟩
          rcases List.mem_cons.1 hq with h1 | h1
          · simp only [List.any_eq_true, beq_iff_eq] at hc
            obtain ⟨r, hr, hrq⟩ := hc
            exact ⟨r, hr, by rw [hrq, h1]⟩
          · exact ⟨q, h1, rfl⟩
      · rw [if_neg hc]
        constructor
        · rintro ⟨q, hq, rfl⟩
          rcases List.mem_cons.1 hq with h1 | h1
          · exact ⟨q, by rw [h1]; exact List.mem_cons_self _ _, rfl⟩
          · obtain ⟨q2, hq2, hq2p⟩ := ih.1 ⟨q, h1, rfl⟩
            exact ⟨q2, List.mem_cons_of_mem _ hq2, hq2p⟩
        · rintro ⟨q, hq, rfl⟩
          rcases List.mem_cons.1 hq with h1 | h1
          · exact ⟨p, List.mem_cons_self _ _, by rw [h1]⟩
          · obtain ⟨q2, hq2, hq2p⟩ := ih.2 ⟨q, h1, rfl⟩
            exact ⟨q2, List.mem_cons_of_mem _ hq2, hq2p⟩

theorem dedupByPosix_eq_self {l : List Path}
    (h : (l.map posix).Nodup) : dedupByPosix l = l := by
  induction l with
  | nil => rfl
  | cons p t ih =>
      rw [List.map_cons, List.nodup_cons] at h
      rw [dedupByPosix, if_neg, ih h.2]
      intro hc
      simp only [List.any_eq_true, beq_iff_eq] at hc
      obtain ⟨r, hr, hrq⟩ := hc
      exact h.1 (hrq ▸ List.mem_map.2 ⟨r, hr, rfl⟩)

theorem inPosixSet_iff {l : List Path} {p : Path} :
    inPosixSet l p = true ↔ ∃ q ∈ l, posix q = posix p := by
  rw [inPosixSet, List.any_eq_true]
  simp only [beq_iff_eq]

/-- C5: the folder change summary: `added` is exactly the set of file
paths present only under the source directory, `removed` exactly those
present only under the destination, and `changed` exactly those present
under both whose contents differ by byte equality (or whose comparison
raises an I/O error — never omitted); notebook normalization plays no
part here; all three lists are sorted by path. -/
theorem c5_dir_diff_summary (fileIgn dirIgn : String → String → Bool)
    (fs : FS) (src dst : Path) :
    (∀ t : String,
      (∃ q ∈ (dir_diff fileIgn dirIgn fs src dst).1, posix q = t) ↔
        ((∃ q ∈ list_rel_files fileIgn dirIgn fs src, posix q = t) ∧
         ¬ ∃ q ∈ list_rel_files fileIgn dirIgn fs dst, posix q = t)) ∧
    (∀ t : String,
      (∃ q ∈ (dir_diff fileIgn dirIgn fs src dst).2.1, posix q = t) ↔
        ((∃ q ∈ list_rel_files fileIgn dirIgn fs dst, posix q = t) ∧
         ¬ ∃ q ∈ list_rel_files fileIgn dirIgn fs src, posix q = t)) ∧
    (((list_rel_files fileIgn dirIgn fs src).map posix).Nodup →
      ∀ q : Path, q ∈ (dir_diff fileIgn dirIgn fs src dst).2.2 ↔
        (q ∈ list_rel_files fileIgn dirIgn fs src ∧
         (∃ q2 ∈ list_rel_files fileIgn dirIgn fs dst,
           posix q2 = posix q) ∧
         filesEqualAt fs (src ++ q) (dst ++ q) ≠ some true)) ∧
    (dir_diff fileIgn dirIgn fs src dst).1.Sorted (keyLe posix) ∧
    (dir_diff fileIgn dirIgn fs src dst).2.1.Sorted (keyLe posix) ∧
    (dir_diff fileIgn dirIgn fs src dst).2.2.Sorted (keyLe posix) := by
  refine ⟨?_, ?_, ?_, sortOn_sorted _ _, sortOn_sorted _ _,
    List.Pairwise.filter _ (sortOn_sorted _ _)⟩
  · intro t
    show (∃ q ∈ sortOn posix (dedupByPosix
      ((list_rel_files fileIgn dirIgn fs src).filter fun p =>
        !(inPosixSet (list_rel_files fileIgn dirIgn fs dst) p))),
      posix q = t) ↔ _
    constructor
    · rintro ⟨q, hq, rfl⟩
      rw [mem_sortOn] at hq
      obtain ⟨q2, hq2, hq2p⟩ := posix_mem_dedupByPosix.1 ⟨q, hq, rfl⟩
      rw [List.mem_filter] at hq2
      refine ⟨⟨q2, hq2.1, hq2p⟩, ?_⟩
      rintro ⟨q3, hq3, hq3p⟩
      rw [Bool.not_eq_true', ← Bool.not_eq_true] at hq2
      exact hq2.2 (inPosixSet_iff.2 ⟨q3, hq3, by rw [hq3p, hq2p]⟩)
    · rintro ⟨⟨q, hq, rfl⟩, hnd⟩
      have hfilt : q ∈ (list_rel_files fileIgn dirIgn fs src).filter
          fun p => !(inPosixSet (list_rel_files fileIgn dirIgn fs dst) p) := by
        rw [List.mem_filter]
        refine ⟨hq, ?_⟩
        rw [Bool.not_eq_true']
        rcases hb : inPosixSet (list_rel_files fileIgn dirIgn fs dst) q
        · rfl
        · obtain ⟨q3, hq3, hq3p⟩ := inPosixSet_iff.1 hb
          exact absurd ⟨q3, hq3, hq3p⟩ hnd
      obtain ⟨q2, hq2, hq2p⟩ := posix_mem_dedupByPosix.2 ⟨q, hfilt, rfl⟩
      exact ⟨q2, (mem_sortOn _).2 hq2, hq2p⟩
  · intro t
    show (∃ q ∈ sortOn posix (dedupByPosix
      ((list_rel_files fileIgn dirIgn fs dst).filter fun p =>
        !(inPosixSet (list_rel_files fileIgn dirIgn fs src) p))),
      posix q = t) ↔ _
    constructor
    · rintro ⟨q, hq, rfl⟩
      rw [mem_sortOn] at hq
      obtain ⟨q2, hq2, hq2p⟩ := posix_mem_dedupByPosix.1 ⟨q, hq, rfl⟩
      rw [List.mem_filter] at hq2
      refine ⟨⟨q2, hq2.1, hq2p⟩, ?_⟩
      rintro ⟨q3, hq3, hq3p⟩
      rw [Bool.not_eq_true', ← Bool.not_eq_true] at hq2
      exact hq2.2 (inPosixSet_iff.2 ⟨q3, hq3, by rw [hq3p, hq2p]⟩)
    · rintro ⟨⟨q, hq, rfl⟩, hnd⟩
      have hfilt : q ∈ (list_rel_files fileIgn dirIgn fs dst).filter
          fun p => !(inPosixSet (list_rel_files fileIgn dirIgn fs src) p) := by
        rw [List.mem_filter]
        refine ⟨hq, ?_⟩
        rw [Bool.not_eq_true']
        rcases hb : inPosixSet (list_rel_files fileIgn dirIgn fs src) q
        · rfl
        · obtain ⟨q3, hq3, hq3p⟩ := inPosixSet_iff.1 hb
          exact absurd ⟨q3, hq3, hq3p⟩ hnd
      obtain ⟨q2, hq2, hq2p⟩ := posix_mem_dedupByPosix.2 ⟨q, hfilt, rfl⟩
      exact ⟨q2, (mem_sortOn _).2 hq2, hq2p⟩
  · intro hnd q
    have hnds : (((list_rel_files fileIgn dirIgn fs src).filter fun p =>
        inPosixSet (list_rel_files fileIgn dirIgn fs dst) p).map
          posix).Nodup := by
      apply List.Nodup.sublist _ hnd
      exact (List.filter_sublist _).map posix
    show (q ∈ (sortOn posix (dedupByPosix
      ((list_rel_files fileIgn dirIgn fs src).filter fun p =>
        inPosixSet (list_rel_files fileIgn dirIgn fs dst) p))).filter
      fun p => match filesEqualAt fs (src ++ p) (dst ++ p) with
        | some true => false
        | _ => true) ↔ _
    rw [List.mem_filter, mem_sortOn, dedupByPosix_eq_self hnds,
      List.mem_filter]
    constructor
    · rintro ⟨⟨hq, hin⟩, hpred⟩
      refine ⟨hq, inPosixSet_iff.1 hin, ?_⟩
      intro heq
      rw [heq] at hpred
      cases hpred
    · rintro ⟨hq, hin, hne⟩
      refine ⟨⟨hq, inPosixSet_iff.2 hin⟩, ?_⟩
      cases heq : filesEqualAt fs (src ++ q) (dst ++ q) with
      | none => rfl
      | some b =>
          cases b with
          | false => rfl
          | true => exact absurd heq hne

/-- Witness for C5: a pair of folders with one added, one removed, one
byte-changed and one unreadable (I/O-error) file. -/
theorem c5_dir_diff_summary_witness :
    (["chg.txt"] : Path) ∈ (dir_diff (fun _ _ => false) (fun _ _ => false)
      [(["s", "add.txt"], some (Content.bytes "a")),
       (["s", "chg.txt"], some (Content.bytes "1")),
       (["s", "err.txt"], none),
       (["d", "chg.txt"], some (Content.bytes "2")),
       (["d", "err.txt"], some (Content.bytes "e")),
       (["d", "rem.txt"], some (Content.bytes "r"))]
      ["s"] ["d"]).2.2 ∧
    (["err.txt"] : Path) ∈ (dir_diff (fun _ _ => false) (fun _ _ => false)
      [(["s", "add.txt"], some (Content.bytes "a")),
       (["s", "chg.txt"], some (Content.bytes "1")),
       (["s", "err.txt"], none),
       (["d", "chg.txt"], some (Content.bytes "2")),
       (["d", "err.txt"], some (Content.bytes "e")),
       (["d", "rem.txt"], some (Content.bytes "r"))]
      ["s"] ["d"]).2.2 := by
  have h := c5_dir_diff_summary (fun _ _ => false) (fun _ _ => false)
    [(["s", "add.txt"], some (Content.bytes "a")),
     (["s", "chg.txt"], some (Content.bytes "1")),
     (["s", "err.txt"], none),
     (["d", "chg.txt"], some (Content.bytes "2")),
     (["d", "err.txt"], some (Content.bytes "e")),
     (["d", "rem.txt"], some (Content.bytes "r"))]
    ["s"] ["d"]
  constructor
  · exact (h.2.2.1 (by decide) ["chg.txt"]).2
      (by refine ⟨by decide, ⟨["chg.txt"], by decide, rfl⟩, by decide⟩)
  · exact (h.2.2.1 (by decide) ["err.txt"]).2
      (by refine ⟨by decide, ⟨["err.txt"], by decide, rfl⟩, by decide⟩)

theorem basenameSearch_ambiguous (fs : FS) (base : String) :
    (∃ l, basenameSearch fs base = .ambiguous l) ↔
      1 < (basenameCandidates fs base).length := by
  rcases hc : basenameCandidates fs base with _ | ⟨⟨rel, label⟩, _ | ⟨y, t⟩⟩
  · have he : basenameSearch fs base = .notFound := by rw [basenameSearch, hc]
    constructor
    · rintro ⟨l, h⟩
      rw [he] at h
      cases h
    · intro h
      exact absurd h (by decide)
  · have he : basenameSearch fs base =
        if label == "folder" then .dir rel else .file rel := by
      rw [basenameSearch, hc]
    constructor
    · rintro ⟨l, h⟩
      rw [he] at h
      cases hl : label == "folder" <;> rw [hl] at h <;> simp at h
    · intro h
      rw [List.length_cons, List.length_nil] at h
      exact absurd h (by decide)
  · have he : basenameSearch fs base = .ambiguous
        (sortOn (fun p => posix p.1) ((rel, label) :: y :: t)) := by
      rw [basenameSearch, hc]
    constructor
    · intro _
      rw [List.length_cons, List.length_cons]
      exact Nat.lt_of_lt_of_le Nat.one_lt_two
        (Nat.le_add_left 2 t.length)
    · intro _
      exact ⟨_, he⟩

theorem relBranchAmbiguous (fs : FS) (comps : Path) (base : String)
    (r : Resolved)
    (hr : ¬ 1 < (basenameCandidates fs base).length →
      ∀ l, r ≠ .ambiguous l) :
    (∃ l, (if (fsExists fs (PENDING ++ comps) ||
            dirExists fs (PENDING ++ comps)) = true then
        if 1 < (basenameCandidates fs base).length then
          Resolved.ambiguous
            (sortOn (fun t => posix t.1) (basenameCandidates fs base))
        else if dirExists fs (PENDING ++ comps) = true then
          Resolved.dir comps
        else r
      else basenameSearch fs base) = Resolved.ambiguous l) ↔
      1 < (basenameCandidates fs base).length := by
  by_cases hex : (fsExists fs (PENDING ++ comps) ||
      dirExists fs (PENDING ++ comps)) = true
  · rw [if_pos hex]
    by_cases hlen : 1 < (basenameCandidates fs base).length
    · rw [if_pos hlen]
      exact iff_of_true ⟨_, rfl⟩ hlen
    · rw [if_neg hlen]
      refine iff_of_false ?_ hlen
      rintro ⟨l, h⟩
      by_cases hd : dirExists fs (PENDING ++ comps) = true
      · rw [if_pos hd] at h
        cases h
      · rw [if_neg hd] at h
        exact hr hlen l h
  · rw [if_neg hex]
    exact basenameSearch_ambiguous fs base

/-- C4 (corrected): for a relative token, resolution returns Ambiguous
exactly when at least two items of the pending tree share the token's
base name — even when the token names an existing exact path (utils.py
deliberately re-disambiguates exact matches, lines 452-467). -/
theorem c4_resolve_ambiguity (fs : FS) (token : String)
    (hna : strStartsWith (normalize_input_token token) "/" = false) :
    (∃ l, resolve_item true fs token = .ambiguous l) ↔
      1 < (basenameCandidates fs (resolveBase token)).length := by
  rw [resolve_item, resolveBase]
  simp only [Bool.not_true, Bool.false_eq_true, if_false, hna]
  cases hp : strStartsWith (normalize_input_token token) "pending/" <;>
    simp only [hp, Bool.false_eq_true, if_false, eq_self_iff_true, if_true]
  · cases hq : strEndsWith (normalize_input_token token) "/" <;>
      simp only [hq, Bool.false_eq_true, if_false, eq_self_iff_true,
        if_true]
    · exact relBranchAmbiguous fs _ _ (Resolved.file _)
        (fun _ l h => Resolved.noConfusion h)
    · exact relBranchAmbiguous fs _ _ (basenameSearch fs _)
        (fun hlen l h =>
          absurd ((basenameSearch_ambiguous fs _).1 ⟨l, h⟩) hlen)
  · cases hq : strEndsWith ((normalize_input_token token).drop 8) "/" <;>
      simp only [hq, Bool.false_eq_true, if_false, eq_self_iff_true,
        if_true]
    · exact relBranchAmbiguous fs _ _ (Resolved.file _)
        (fun _ l h => Resolved.noConfusion h)
    · exact relBranchAmbiguous fs _ _ (basenameSearch fs _)
        (fun hlen l h =>
          absurd ((basenameSearch_ambiguous fs _).1 ⟨l, h⟩) hlen)

/-- Counterexample to C4 as stated: with pending files `a/t` and `b/t`,
the token `a/t` names an existing exact path under the pending root, yet
resolution returns Ambiguous. -/
theorem c4_resolve_ambiguity_counterexample :
    fsExists
      [(["pending", "a", "t"], some (Content.bytes "x")),
       (["pending", "b", "t"], some (Content.bytes "y"))]
      (PENDING ++ ["a", "t"]) = true ∧
    resolve_item true
      [(["pending", "a", "t"], some (Content.bytes "x")),
       (["pending", "b", "t"], some (Content.bytes "y"))]
      "a/t" =
      .ambiguous [(["a", "t"], "file"), (["b", "t"], "file")] := by
  decide

/-- Witness for C4: the corrected equivalence applied at a concrete
two-candidate tree. -/
theorem c4_resolve_ambiguity_witness :
    ∃ l, resolve_item true
      [(["pending", "a", "u"], some (Content.bytes "x")),
       (["pending", "b", "u"], some (Content.bytes "y"))]
      "a/u" = Resolved.ambiguous l :=
  (c4_resolve_ambiguity
    [(["pending", "a", "u"], some (Content.bytes "x")),
     (["pending", "b", "u"], some (Content.bytes "y"))]
    "a/u" (by decide)).2 (by decide)

/-- C6: notebook canonicalization is idempotent: on any parseable
document (well-formed parse tree) that the strip step accepts, the
canonical text of the canonical output — whose parse tree is the
key-sorted stripped document — is the canonical text of the input:
canonicalize (canonicalize x) = canonicalize x. -/
theorem c6_normalization_idempotent {j t : Json} (hwf : wfJ j = true)
    (h : stripTopU j = some t) :
    normalizedNotebookText j = some (dumpsSorted t) ∧
    normalizedNotebookText (sortJ t) = some (dumpsSorted t) := by
  constructor
  · rw [normalizedNotebookText, h]
    rfl
  · rw [normalizedNotebookText, stripTopU_sortJ hwf h]
    show some (dumpsSorted (sortJ t)) = _
    rw [dumpsSorted, sortJ_idem, ← dumpsSorted]

/-- A one-markdown-cell notebook document, a concrete evaluation point. -/
def mdNotebook : Json :=
  .obj [("cells", .arr [.obj
    [("cell_type", .str "markdown"), ("source", .str "hi")]]),
   ("nbformat", .num 4)]

/-- Witness for C6: a one-markdown-cell notebook is its own strip, and
normalizing its canonical form returns the same canonical text. -/
theorem c6_normalization_idempotent_witness :
    normalizedNotebookText (sortJ mdNotebook) =
      some (dumpsSorted mdNotebook) :=
  (@c6_normalization_idempotent mdNotebook mdNotebook
    (by
      rw [mdNotebook]
      refine wfJ_obj_iff.2 ⟨by decide, ?_⟩
      intro p hp
      rcases List.mem_cons.1 hp with h1 | h1
      · rw [h1]
        refine wfJ_arr_iff.2 ?_
        intro x hx
        rcases List.mem_cons.1 hx with h2 | h2
        · rw [h2]
          refine wfJ_obj_iff.2 ⟨by decide, ?_⟩
          intro q hq
          rcases List.mem_cons.1 hq with h3 | h3
          · rw [h3]
            exact wfJ_str _
          · rcases List.mem_cons.1 h3 with h4 | h4
            · rw [h4]
              exact wfJ_str _
            · cases h4
        · cases h2
      · rcases List.mem_cons.1 h1 with h2 | h2
        · rw [h2]
          exact wfJ_num _
        · cases h2)
    rfl).2

/-- C8 (code bug): EOF on the forced-resync (marker) prompt does abort
with exit 130 and releases the lock, but EOF on the orphan-removal
prompt does not abort the operation: `_prompt_yes` raises
`PromptAborted` at sync.py line 182 and then catches it itself in its
`except Exception` (lines 187-188), returning `False` — EOF is treated
as an answer of no, removal is skipped (the orphan file survives), the
run proceeds and exits 0, exactly the behavior the claim rules out.
A "y" answer on the same input removes the orphan, showing EOF and "n"
are indistinguishable here. -/
theorem c8_orphan_prompt_eof_treated_as_no :
    (run_sync false false
      ⟨fun _ => false, 100, 7, false, none, none, none, false⟩
      ⟨[(["preview", "orphan.txt"], some (Content.bytes "o"))],
       .absent, .absent, [], true, false⟩).1 = .exit 0 ∧
    (run_sync false false
      ⟨fun _ => false, 100, 7, false, none, none, none, false⟩
      ⟨[(["preview", "orphan.txt"], some (Content.bytes "o"))],
       .absent, .absent, [], true, false⟩).2.lock = .absent ∧
    (run_sync false false
      ⟨fun _ => false, 100, 7, false, none, none, none, false⟩
      ⟨[(["preview", "orphan.txt"], some (Content.bytes "o"))],
       .absent, .absent, [], true, false⟩).2.marker = .absent ∧
    fsGet (run_sync false false
      ⟨fun _ => false, 100, 7, false, none, none, none, false⟩
      ⟨[(["preview", "orphan.txt"], some (Content.bytes "o"))],
       .absent, .absent, [], true, false⟩).2.fs
      ["preview", "orphan.txt"] = some (some (Content.bytes "o")) ∧
    fsGet (run_sync false false
      ⟨fun _ => false, 100, 7, false, none, some "y", none, false⟩
      ⟨[(["preview", "orphan.txt"], some (Content.bytes "o"))],
       .absent, .absent, [], true, false⟩).2.fs
      ["preview", "orphan.txt"] = none ∧
    (run_sync false false
      ⟨fun _ => false, 100, 7, false, none, none, none, false⟩
      ⟨[], .absent, .corrupt, [], true, false⟩).1 = .exit 130 ∧
    (run_sync false false
      ⟨fun _ => false, 100, 7, false, none, none, none, false⟩
      ⟨[], .absent, .corrupt, [], true, false⟩).2.lock = .absent := by
  decide

/-- C9 (code bug): a `KeyboardInterrupt` during the file-operation
application phase escapes `run_sync` with the lock file and the recovery
marker still present — the application loop (sync.py line 515) runs
before the `try`/`finally` of lines 579-587, so no cleanup happens —
while the operations already applied remain applied and later ones are
not. -/
theorem c9_interrupt_cleanup :
    (run_sync false false
      ⟨fun _ => false, 100, 7, false, none, none, some 1, false⟩
      ⟨[(["pending", "a.txt"], some (Content.bytes "1")),
        (["pending", "b.txt"], some (Content.bytes "2"))],
       .absent, .absent,
       [⟨"a.txt", ["a.txt"], false⟩, ⟨"b.txt", ["b.txt"], false⟩],
       true, false⟩).1 = .excKeyboardInterrupt ∧
    (run_sync false false
      ⟨fun _ => false, 100, 7, false, none, none, some 1, false⟩
      ⟨[(["pending", "a.txt"], some (Content.bytes "1")),
        (["pending", "b.txt"], some (Content.bytes "2"))],
       .absent, .absent,
       [⟨"a.txt", ["a.txt"], false⟩, ⟨"b.txt", ["b.txt"], false⟩],
       true, false⟩).2.lock = .valid 7 100 ∧
    (run_sync false false
      ⟨fun _ => false, 100, 7, false, none, none, some 1, false⟩
      ⟨[(["pending", "a.txt"], some (Content.bytes "1")),
        (["pending", "b.txt"], some (Content.bytes "2"))],
       .absent, .absent,
       [⟨"a.txt", ["a.txt"], false⟩, ⟨"b.txt", ["b.txt"], false⟩],
       true, false⟩).2.marker = .valid 7 100 ∧
    fsGet (run_sync false false
      ⟨fun _ => false, 100, 7, false, none, none, some 1, false⟩
      ⟨[(["pending", "a.txt"], some (Content.bytes "1")),
        (["pending", "b.txt"], some (Content.bytes "2"))],
       .absent, .absent,
       [⟨"a.txt", ["a.txt"], false⟩, ⟨"b.txt", ["b.txt"], false⟩],
       true, false⟩).2.fs ["preview", "a.txt"] =
      some (some (Content.bytes "1")) ∧
    fsGet (run_sync false false
      ⟨fun _ => false, 100, 7, false, none, none, some 1, false⟩
      ⟨[(["pending", "a.txt"], some (Content.bytes "1")),
        (["pending", "b.txt"], some (Content.bytes "2"))],
       .absent, .absent,
       [⟨"a.txt", ["a.txt"], false⟩, ⟨"b.txt", ["b.txt"], false⟩],
       true, false⟩).2.fs ["preview", "b.txt"] = none := by
  decide

/-- Witness for C10: a fresh marker under auto-confirm still prompts (EOF
aborts), and a stale marker under auto-confirm decides without stdin. -/
theorem c10_marker_check_prompts_witness :
    check_marker_and_maybe_force_full_resync (.valid 7 95) true 100 none =
      .error () ∧
    check_marker_and_maybe_force_full_resync (.valid 7 0) true 100
      none = .ok true :=
  ⟨((c10_marker_check_prompts (.valid 7 95) true 100).2.2
      (by intro h; cases h) (by decide)).1,
   (c10_marker_check_prompts (.valid 7 0) true 100).2.1
      (by intro h; cases h) rfl (by decide) none⟩

end Classpub
